import Mathlib

/-!
# Verification of `src/webp/src/utils/huffman_encode.c`

A shallow embedding of the WebP lossless Huffman entropy encoder:
histogram smoothing for RLE (`OptimizeHuffmanForRle`), bounded-depth
Huffman tree construction (`GenerateOptimalTree`), canonical code
assignment (`ConvertBitDepthsToSymbols` / `ReverseBits`) and the
run-length tokenizer for code-length arrays
(`VP8LCreateCompressedHuffmanTree`).

C `int` counts are non-negative throughout the encoder, so arrays of
counts, code lengths and codes are modelled as `List Nat`; the only
negative value in the C code (`value_ = -1` marking internal tree nodes)
is modelled by `Int` in `HTree.value_`.  In-place array updates become
`List.set`; C loops become structural or fuel-indexed recursion.
-/

/-- Modelled from the spec: `MAX_ALLOWED_CODE_LENGTH` comes from
`webp/format_constants.h`, which is not part of this repository snapshot.
The spec fixes the maximum code length of the host format at 15
("codes 0-15 are literal code lengths", "a small positive integer,
typically capped at 15 in the host format"). -/
def MAX_ALLOWED_CODE_LENGTH : Nat := 15

/-- `HuffmanTreeToken` from `huffman_encode.h`: a (code, extra bits) pair
with `code ∈ 0..18`. -/
structure HuffmanTreeToken where
  code : Nat
  extra_bits : Nat
deriving DecidableEq, Repr

/-- Inner `while (repetitions >= 1)` loop of `CodeRepeatedValues`,
for the case where the literal (if any) has already been emitted. -/
def codeValueLoop (repetitions value : Nat) : List HuffmanTreeToken :=
  if repetitions = 0 then []
  else if repetitions < 3 then List.replicate repetitions ⟨value, 0⟩
  else if repetitions < 7 then [⟨16, repetitions - 3⟩]
  else ⟨16, 3⟩ :: codeValueLoop (repetitions - 6) value
termination_by repetitions
decreasing_by omega

/-- `CodeRepeatedValues` (huffman_encode.c:281-313): emit tokens for a
run of `repetitions` copies of the non-zero length `value`; a literal
token is emitted first when `value ≠ prev_value`. -/
def codeRepeatedValues (repetitions value prev_value : Nat) :
    List HuffmanTreeToken :=
  if value ≠ prev_value then ⟨value, 0⟩ :: codeValueLoop (repetitions - 1) value
  else codeValueLoop repetitions value

/-- `CodeRepeatedZeros` (huffman_encode.c:315-344): emit tokens for a run
of `repetitions` zero lengths. -/
def codeRepeatedZeros (repetitions : Nat) : List HuffmanTreeToken :=
  if repetitions = 0 then []
  else if repetitions < 3 then List.replicate repetitions ⟨0, 0⟩
  else if repetitions < 11 then [⟨17, repetitions - 3⟩]
  else if repetitions < 139 then [⟨18, repetitions - 11⟩]
  else ⟨18, 0x7f⟩ :: codeRepeatedZeros (repetitions - 138)
termination_by repetitions
decreasing_by omega

/-- Main loop of `VP8LCreateCompressedHuffmanTree` (huffman_encode.c:354-368):
split `code_lengths` into maximal runs of equal values and tokenize each,
threading `prev_value` through the non-zero runs. -/
def createTokens (code_lengths : List Nat) (prev_value : Nat) :
    List HuffmanTreeToken :=
  match code_lengths with
  | [] => []
  | value :: rest =>
    let tail := rest.dropWhile (· == value)
    let runs := 1 + (rest.takeWhile (· == value)).length
    if value = 0 then
      codeRepeatedZeros runs ++ createTokens tail prev_value
    else
      codeRepeatedValues runs value prev_value ++ createTokens tail value
termination_by code_lengths.length
decreasing_by
  all_goals
    simpa using Nat.lt_succ_of_le (List.Sublist.length_le (List.dropWhile_sublist _))

/-- `VP8LCreateCompressedHuffmanTree` (huffman_encode.c:346-371).  The C
function writes the tokens into a caller buffer and returns their number;
the model returns the token list itself (`prev_value` starts at the
sentinel 8). -/
def vp8lCreateCompressedHuffmanTree (code_lengths : List Nat) :
    List HuffmanTreeToken :=
  createTokens code_lengths 8

/-- Modelled from the spec: token decoding semantics (§6): codes 0-15 are
literal lengths, 16 repeats the previous non-zero length 3+extra times,
17 emits 3+extra zeros, 18 emits 11+extra zeros.  `prev` is the
"previously emitted non-zero length" register. -/
def decodeTokens (tokens : List HuffmanTreeToken) (prev : Nat) : List Nat :=
  match tokens with
  | [] => []
  | t :: ts =>
    if t.code ≤ 15 then
      t.code :: decodeTokens ts (if t.code = 0 then prev else t.code)
    else if t.code = 16 then
      List.replicate (3 + t.extra_bits) prev ++ decodeTokens ts prev
    else if t.code = 17 then
      List.replicate (3 + t.extra_bits) 0 ++ decodeTokens ts prev
    else
      List.replicate (11 + t.extra_bits) 0 ++ decodeTokens ts prev

/-- Modelled from the spec, for claim C2 exactly as worded: a decoder whose
"previously emitted non-zero length" register starts out *empty* (nothing
has been emitted yet) and that has no defined result when token 16 arrives
with the register still empty. -/
def decodeTokensStrict (tokens : List HuffmanTreeToken) (prev : Option Nat) :
    Option (List Nat) :=
  match tokens with
  | [] => some []
  | t :: ts =>
    if t.code ≤ 15 then
      (decodeTokensStrict ts (if t.code = 0 then prev else some t.code)).map
        (t.code :: ·)
    else if t.code = 16 then
      match prev with
      | none => none
      | some p =>
        (decodeTokensStrict ts prev).map (List.replicate (3 + t.extra_bits) p ++ ·)
    else if t.code = 17 then
      (decodeTokensStrict ts prev).map (List.replicate (3 + t.extra_bits) 0 ++ ·)
    else
      (decodeTokensStrict ts prev).map (List.replicate (11 + t.extra_bits) 0 ++ ·)

/-- Number of code-length positions a single token stands for, per the
wire semantics of §6 (literal = 1, 16/17 = 3+extra, 18 = 11+extra). -/
def tokenSpan (t : HuffmanTreeToken) : Nat :=
  if t.code ≤ 15 then 1
  else if t.code = 16 then 3 + t.extra_bits
  else if t.code = 17 then 3 + t.extra_bits
  else 11 + t.extra_bits

/-! ## Histogram smoothing: `OptimizeHuffmanForRle` -/

/-- `ValuesShouldBeCollapsedToStrideAverage` (huffman_encode.c:23-25):
`abs(a - b) < 4`. -/
def valuesShouldBeCollapsedToStrideAverage (a b : Nat) : Bool :=
  ((a : Int) - (b : Int)).natAbs < 4

/-- The value written over a closing stride in pass 3
(huffman_encode.c:84-91): `count = (sum + stride/2)/stride`, then
`if (count < 1) count = 1`, then `if (sum == 0) count = 0`. -/
def collapseCount (sum stride : Nat) : Nat :=
  let count := (sum + stride / 2) / stride
  let count1 := if count < 1 then 1 else count
  if sum = 0 then 0 else count1

/-- Claim C9's description of the collapsed value taken verbatim: the
rounded mean (half-up), except 0 for an all-zero-sum stride - without the
clamp to 1 that the C code applies. -/
def collapseCountSpecC9 (sum stride : Nat) : Nat :=
  if sum = 0 then 0 else (sum + stride / 2) / stride

/-- Amended collapsed value for claim C9: the rounded mean clamped below
to 1, except 0 for an all-zero-sum stride. -/
def collapseCountAmended (sum stride : Nat) : Nat :=
  if sum = 0 then 0 else max 1 ((sum + stride / 2) / stride)

/-- `for (k = 0; k < stride; ++k) counts[i - k - 1] = count;`
(huffman_encode.c:92-96). -/
def writeStride (arr : List Nat) (i stride c : Nat) : List Nat :=
  (List.range stride).foldl (fun a k => a.set (i - k - 1) c) arr

/-- `for (k = 0; k < stride; ++k) good_for_rle[i - k - 1] = 1;`
(huffman_encode.c:58-61). -/
def markGood (g : List Bool) (i stride : Nat) : List Bool :=
  (List.range stride).foldl (fun a k => a.set (i - k - 1) true) g

/-- One iteration of pass 2 of `OptimizeHuffmanForRle`
(huffman_encode.c:54-70); state is `(symbol, stride, good_for_rle)`. -/
def goodForRleStep (arr : List Nat) (L : Nat) (st : Nat × Nat × List Bool)
    (i : Nat) : Nat × Nat × List Bool :=
  let (symbol, stride, good) := st
  if i = L ∨ arr.getD i 0 ≠ symbol then
    let good1 :=
      if (symbol = 0 ∧ stride ≥ 5) ∨ (symbol ≠ 0 ∧ stride ≥ 7) then
        markGood good i stride
      else good
    (if i ≠ L then arr.getD i 0 else symbol, 1, good1)
  else
    (symbol, stride + 1, good)

/-- Pass 2 loop `for (i = 0; i < length + 1; ++i)` unrolled by a countdown
of remaining iterations. -/
def goodForRleGo (arr : List Nat) (L : Nat) :
    Nat → Nat → Nat × Nat × List Bool → List Bool
  | _, 0, st => st.2.2
  | i, k + 1, st => goodForRleGo arr L (i + 1) k (goodForRleStep arr L st i)

/-- Pass 2 of `OptimizeHuffmanForRle`: mark every position inside a run of
zeros of length >= 5, or of a non-zero value of length >= 7. -/
def goodForRle (arr : List Nat) : List Bool :=
  goodForRleGo arr arr.length 0 (arr.length + 1)
    (arr.getD 0 0, 0, List.replicate arr.length false)

/-- One iteration of pass 3 of `OptimizeHuffmanForRle`
(huffman_encode.c:77-118); state is `(stride, sum, limit, counts)`; `cv`
is the collapsed-value rule (the C code's is `collapseCount`). -/
def pass3step (cv : Nat → Nat → Nat) (good : List Bool) (L : Nat)
    (st : Nat × Nat × Nat × List Nat) (i : Nat) : Nat × Nat × Nat × List Nat :=
  let (stride, sum, limit, arr) := st
  let st1 : Nat × Nat × Nat × List Nat :=
    if i = L ∨ good.getD i false = true ∨ (i ≠ 0 ∧ good.getD (i - 1) false = true) ∨
        ¬ valuesShouldBeCollapsedToStrideAverage (arr.getD i 0) limit then
      let arr1 :=
        if stride ≥ 4 ∨ (stride ≥ 3 ∧ sum = 0) then
          writeStride arr i stride (cv sum stride)
        else arr
      let limit1 :=
        if i < L - 3 then
          (arr1.getD i 0 + arr1.getD (i + 1) 0 + arr1.getD (i + 2) 0 +
            arr1.getD (i + 3) 0 + 2) / 4
        else if i < L then arr1.getD i 0
        else 0
      (0, 0, limit1, arr1)
    else (stride, sum, limit, arr)
  let stride2 := st1.1 + 1
  if i ≠ L then
    let sum2 := st1.2.1 + st1.2.2.2.getD i 0
    let limit2 := if stride2 ≥ 4 then (sum2 + stride2 / 2) / stride2 else st1.2.2.1
    (stride2, sum2, limit2, st1.2.2.2)
  else (stride2, st1.2.1, st1.2.2.1, st1.2.2.2)

/-- Pass 3 loop `for (i = 0; i < length + 1; ++i)` unrolled by a countdown
of remaining iterations. -/
def pass3go (cv : Nat → Nat → Nat) (good : List Bool) (L : Nat) :
    Nat → Nat → Nat × Nat × Nat × List Nat → List Nat
  | _, 0, st => st.2.2.2
  | i, k + 1, st => pass3go cv good L (i + 1) k (pass3step cv good L st i)

/-- Pass 3 of `OptimizeHuffmanForRle` (initial state:
`stride = 0, sum = 0, limit = counts[0]`). -/
def pass3 (cv : Nat → Nat → Nat) (good : List Bool) (arr : List Nat) :
    List Nat :=
  pass3go cv good arr.length 0 (arr.length + 1) (0, 0, arr.getD 0 0, arr)

/-- Pass 1 of `OptimizeHuffmanForRle` (huffman_encode.c:33-41): the length
of the histogram once trailing zero counts are dropped. -/
def trimmedLength (counts : List Nat) : Nat :=
  counts.length - (counts.reverse.takeWhile (· == 0)).length

/-- `OptimizeHuffmanForRle` (huffman_encode.c:29-122), parameterized by
the collapsed-value rule so the code's rule can be compared with the
spec's wording.  The C function mutates `counts` in place and returns an
error flag only for allocation failure; the model is total and returns
the new array. -/
def optimizeHuffmanForRleWith (cv : Nat → Nat → Nat) (counts : List Nat) :
    List Nat :=
  let L := trimmedLength counts
  if L = 0 then counts
  else
    let front := counts.take L
    pass3 cv (goodForRle front) front ++ counts.drop L

/-- `OptimizeHuffmanForRle` with the collapsed-value rule of the C code. -/
def optimizeHuffmanForRle (counts : List Nat) : List Nat :=
  optimizeHuffmanForRleWith collapseCount counts

/-- `OptimizeHuffmanForRle` as claim C9 describes it (no clamp to 1). -/
def optimizeHuffmanForRleSpecC9 (counts : List Nat) : List Nat :=
  optimizeHuffmanForRleWith collapseCountSpecC9 counts

/-! ## Bounded-depth tree construction: `GenerateOptimalTree` -/

/-- The merge tree built by `GenerateOptimalTree`.  The C code stores
nodes in a flat pool with integer child indices (`pool_index_left_`,
`pool_index_right_`, `-1` marking a leaf); since the pool is built
strictly bottom-up and is acyclic, it is modelled by an inductive tree. -/
inductive HTree where
  | leaf (value : Nat)
  | node (l r : HTree)
deriving DecidableEq, Repr

/-- The `value_` field of a `HuffmanTree` node: the symbol index for a
leaf, `-1` for an internal (merged) node. -/
def HTree.value_ : HTree → Int
  | .leaf v => v
  | .node _ _ => -1

/-- Leaf values of a tree, left to right. -/
def HTree.leaves : HTree → List Nat
  | .leaf v => [v]
  | .node l r => l.leaves ++ r.leaves

/-- `(value, depth)` pairs of the leaves of a tree rooted at `level`,
in the order `SetBitDepths` visits them. -/
def HTree.leafDepths : HTree → Nat → List (Nat × Nat)
  | .leaf v, d => [(v, d)]
  | .node l r, d => l.leafDepths (d + 1) ++ r.leafDepths (d + 1)

/-- Leaf values of all trees of a working array, in array order. -/
def leafValues (l : List (Nat × HTree)) : List Nat :=
  l.flatMap (fun p => p.2.leaves)

/-- Sequential in-place writes `arr[v] := d` for each pair `(v, d)`. -/
def writeAll (pairs : List (Nat × Nat)) (arr : List Nat) : List Nat :=
  pairs.foldl (fun a p => a.set p.1 p.2) arr

/-- `CompareHuffmanTrees` (huffman_encode.c:133-149) on
`(total_count_, value_)` pairs: more count first, then smaller value
first. -/
def compareHuffmanTrees (t1 t2 : Nat × Int) : Int :=
  if t1.1 > t2.1 then -1
  else if t1.1 < t2.1 then 1
  else if t1.2 < t2.2 then -1
  else if t1.2 > t2.2 then 1
  else 0

/-- `qsort` order on working-array entries `(total_count_, tree)`. -/
def treeLE (a b : Nat × HTree) : Bool :=
  compareHuffmanTrees (a.1, a.2.value_) (b.1, b.2.value_) ≤ 0

/-- Insertion into a `treeLE`-sorted list. -/
def insertByTreeLE (x : Nat × HTree) : List (Nat × HTree) → List (Nat × HTree)
  | [] => [x]
  | y :: ys => if treeLE x y then x :: y :: ys else y :: insertByTreeLE x ys

/-- The `qsort(tree, tree_size, ..., CompareHuffmanTrees)` call
(huffman_encode.c:228), modelled by insertion sort: `CompareHuffmanTrees`
is a total order that is antisymmetric on the leaf array (all `value_`
fields are distinct symbol indices), so the sorted permutation - and
hence the `qsort` output - is unique. -/
def sortTrees : List (Nat × HTree) → List (Nat × HTree)
  | [] => []
  | x :: xs => insertByTreeLE x (sortTrees xs)

/-- Indices of the used symbols (`histogram[j] != 0`), ascending. -/
def usedSymbols (hist : List Nat) : List Nat :=
  (List.range hist.length).filter (fun j => hist.getD j 0 != 0)

/-- Leaf construction (huffman_encode.c:215-225): one node per used
symbol, with `total_count_ = max(histogram[j], count_min)`. -/
def initialLeaves (hist : List Nat) (count_min : Nat) : List (Nat × HTree) :=
  (usedSymbols hist).map (fun j =>
    (if hist.getD j 0 < count_min then count_min else hist.getD j 0,
     HTree.leaf j))

/-- Re-insertion of a merged node (huffman_encode.c:239-254): linear scan
from the front, insert before the first entry with `total_count_ <= count`. -/
def insertSortedNode (c : Nat) (t : HTree) :
    List (Nat × HTree) → List (Nat × HTree)
  | [] => [(c, t)]
  | p :: rest => if p.1 ≤ c then (c, t) :: p :: rest else p :: insertSortedNode c t rest

/-- One iteration of the merge loop (huffman_encode.c:232-255): pop the
two lowest-count entries from the tail of the descending array, merge
them (left child = second-to-last, right child = last), re-insert. -/
def mergeStep (l : List (Nat × HTree)) : List (Nat × HTree) :=
  match l.reverse with
  | t1 :: t2 :: rest => insertSortedNode (t2.1 + t1.1) (HTree.node t2.2 t1.2) rest.reverse
  | _ => l

/-- The merge loop `while (tree_size > 1)`, with an explicit iteration
budget (each `mergeStep` shrinks the list by one, so any
`fuel >= length - 1` reaches the fixed point). -/
def buildRoot (fuel : Nat) (l : List (Nat × HTree)) : List (Nat × HTree) :=
  match fuel with
  | 0 => l
  | fuel + 1 => if 2 ≤ l.length then buildRoot fuel (mergeStep l) else l

/-- `SetBitDepths` (huffman_encode.c:151-160): write each leaf's depth at
index `value_` (left subtree first, as the C recursion does). -/
def setBitDepths (t : HTree) (depths : List Nat) (level : Nat) : List Nat :=
  match t with
  | .leaf v => depths.set v level
  | .node l r => setBitDepths r (setBitDepths l depths (level + 1)) (level + 1)

/-- `max_depth` computation (huffman_encode.c:262-268): start from
`bit_depths[0]` and fold `max` over the rest. -/
def maxDepthOf (d : List Nat) : Nat :=
  match d with
  | [] => 0
  | x :: xs => xs.foldl max x

/-- One iteration of the `count_min` retry loop of `GenerateOptimalTree`
(huffman_encode.c:209-273): build and sort the leaves, merge to a single
root and write the leaf depths; a single used symbol gets depth 1;
no used symbol leaves `bit_depths` untouched. -/
def oneIteration (hist : List Nat) (count_min : Nat) (depths : List Nat) :
    List Nat :=
  let sorted := sortTrees (initialLeaves hist count_min)
  if 2 ≤ sorted.length then
    match buildRoot sorted.length sorted with
    | (_, t) :: _ => setBitDepths t depths 0
    | [] => depths
  else
    match sorted with
    | [p] => depths.set p.2.value_.toNat 1
    | _ => depths

/-- The `for (count_min = 1; ; count_min *= 2)` retry loop, with fuel
(the C loop has no bound; it exits when `max_depth <= tree_depth_limit`). -/
def generateLoop (hist : List Nat) (limit : Nat) :
    Nat → Nat → List Nat → Option (List Nat)
  | 0, _, _ => none
  | fuel + 1, count_min, depths =>
    let d := oneIteration hist count_min depths
    if maxDepthOf d ≤ limit then some d
    else generateLoop hist limit fuel (count_min * 2) d

/-- `GenerateOptimalTree` (huffman_encode.c:181-276).  `depths0` is the
caller-supplied `bit_depths` array (the C code never clears it; entries of
unused symbols keep their previous contents).  `none` models
non-termination of the retry loop within the given fuel. -/
def generateOptimalTree (hist : List Nat) (tree_depth_limit : Nat)
    (depths0 : List Nat) (fuel : Nat) : Option (List Nat) :=
  generateLoop hist tree_depth_limit fuel 1 depths0

/-- Kraft sum of the used symbols: `sum over used i of 2^-lengths[i]`. -/
def kraftSum (hist lengths : List Nat) : ℚ :=
  ((usedSymbols hist).map (fun i => (1 / 2 ^ lengths.getD i 0 : ℚ))).sum

/-! ## Canonical code assignment: `ConvertBitDepthsToSymbols` -/

/-- `kReversedBits` (huffman_encode.c:376-379): bit-reversed 4-bit values. -/
def kReversedBits : List Nat :=
  [0x0, 0x8, 0x4, 0xc, 0x2, 0xa, 0x6, 0xe,
   0x1, 0x9, 0x5, 0xd, 0x3, 0xb, 0x7, 0xf]

/-- The `while (i < num_bits)` loop of `ReverseBits`
(huffman_encode.c:383-388): process one nibble per iteration, placing its
reversal at `MAX_ALLOWED_CODE_LENGTH + 1 - i` after `i += 4`; the first
argument is an iteration budget (each iteration advances `i` by 4, so a
budget of `num_bits` is always sufficient). -/
def reverseBitsLoop (num_bits : Nat) : Nat → Nat → Nat → Nat → Nat
  | 0, _, _, retval => retval
  | fuel + 1, i, bits, retval =>
    if i < num_bits then
      reverseBitsLoop num_bits fuel (i + 4) (bits >>> 4)
        (retval ||| (kReversedBits.getD (bits &&& 0xf) 0 <<<
          (MAX_ALLOWED_CODE_LENGTH + 1 - (i + 4))))
    else retval

/-- `ReverseBits` (huffman_encode.c:381-391). -/
def reverseBits (num_bits bits : Nat) : Nat :=
  reverseBitsLoop num_bits num_bits 0 bits 0 >>>
    (MAX_ALLOWED_CODE_LENGTH + 1 - num_bits)

/-- Reversal of the low `n` bits of `v` (specification-level definition
used to state what `ReverseBits` computes). -/
def bitRev : Nat → Nat → Nat
  | 0, _ => 0
  | n + 1, v => ((v &&& 1) <<< n) ||| bitRev n (v >>> 1)

/-- `depth_count` histogram of `ConvertBitDepthsToSymbols`
(huffman_encode.c:399-408), with `depth_count[0]` forced to 0. -/
def depth_count (lens : List Nat) : List Nat :=
  (lens.foldl (fun dc l => dc.set l (dc.getD l 0 + 1))
    (List.replicate (MAX_ALLOWED_CODE_LENGTH + 1) 0)).set 0 0

/-- The `next_code` recurrence (huffman_encode.c:409-416):
`next_code[0] = 0`, `next_code[i] = (next_code[i-1] + depth_count[i-1]) << 1`
(as a function of the index; the C code tabulates it for `i <= 15`). -/
def nextCodeVal (dc : List Nat) : Nat → Nat
  | 0 => 0
  | i + 1 => (nextCodeVal dc i + dc.getD i 0) * 2

/-- The tabulated `next_code` array of size `MAX_ALLOWED_CODE_LENGTH+1`. -/
def next_code (lens : List Nat) : List Nat :=
  (List.range (MAX_ALLOWED_CODE_LENGTH + 1)).map (nextCodeVal (depth_count lens))

/-- The final assignment loop (huffman_encode.c:417-420) before bit
reversal: each symbol receives `next_code[code_length]++`; the returned
list holds, per symbol, the pre-reversal code value. -/
def preCodesGo : List Nat → List Nat → List Nat
  | [], _ => []
  | l :: ls, nc => nc.getD l 0 :: preCodesGo ls (nc.set l (nc.getD l 0 + 1))

/-- Pre-reversal canonical code of every symbol, in symbol order. -/
def preCodes (lens : List Nat) : List Nat := preCodesGo lens (next_code lens)

/-- `ConvertBitDepthsToSymbols` (huffman_encode.c:394-421):
`codes[i] = ReverseBits(code_lengths[i], next_code[code_lengths[i]]++)`,
factored through `preCodes`. -/
def convertBitDepthsToSymbols (lens : List Nat) : List Nat :=
  (lens.zip (preCodes lens)).map (fun p => reverseBits p.1 p.2)

/-- `VP8LCreateHuffmanTree` (huffman_encode.c:426-439): smooth the
histogram, build the bounded-depth code lengths into the caller's
`code_lengths` array (`depths0`), then assign the canonical codes;
returns `(code_lengths, codes)`. -/
def vp8lCreateHuffmanTree (histogram : List Nat) (tree_depth_limit : Nat)
    (depths0 : List Nat) (fuel : Nat) : Option (List Nat × List Nat) :=
  (generateOptimalTree (optimizeHuffmanForRle histogram) tree_depth_limit
    depths0 fuel).map (fun d => (d, convertBitDepthsToSymbols d))

/-! ## Theorems about the tokenizer (claims C2, C6, C7, C10) -/

theorem decodeTokens_replicate_zero (k : Nat) (ts : List HuffmanTreeToken)
    (prev : Nat) :
    decodeTokens (List.replicate k ⟨0, 0⟩ ++ ts) prev =
      List.replicate k 0 ++ decodeTokens ts prev := by
  induction k with
  | zero => simp
  | succ n ih => simp [decodeTokens, ih, List.replicate_succ]

theorem decodeTokens_codeRepeatedZeros (r : Nat) (ts : List HuffmanTreeToken)
    (prev : Nat) :
    decodeTokens (codeRepeatedZeros r ++ ts) prev =
      List.replicate r 0 ++ decodeTokens ts prev := by
  induction r using codeRepeatedZeros.induct with
  | case1 => simp [codeRepeatedZeros]
  | case2 r h0 h3 =>
    rw [codeRepeatedZeros]
    simp only [if_neg h0, if_pos h3]
    exact decodeTokens_replicate_zero r ts prev
  | case3 r h0 h3 h11 =>
    rw [codeRepeatedZeros]
    simp only [if_neg h0, if_neg h3, if_pos h11]
    have : 3 + (r - 3) = r := by omega
    simp [decodeTokens, this]
  | case4 r h0 h3 h11 h139 =>
    rw [codeRepeatedZeros]
    simp only [if_neg h0, if_neg h3, if_neg h11, if_pos h139]
    have : 11 + (r - 11) = r := by omega
    simp [decodeTokens, this]
  | case5 r h0 h3 h11 h139 ih =>
    rw [codeRepeatedZeros]
    simp only [if_neg h0, if_neg h3, if_neg h11, if_neg h139, List.cons_append]
    have hd : decodeTokens (⟨18, 0x7f⟩ :: (codeRepeatedZeros (r - 138) ++ ts)) prev
        = List.replicate 138 0 ++ decodeTokens (codeRepeatedZeros (r - 138) ++ ts) prev := by
      simp [decodeTokens]
    have hr : (138 : Nat) + (r - 138) = r := by omega
    rw [hd, ih, ← List.append_assoc, ← List.replicate_add, hr]

theorem decodeTokens_replicate_value (v : Nat) (hv0 : v ≠ 0) (hv15 : v ≤ 15)
    (k : Nat) (ts : List HuffmanTreeToken) :
    decodeTokens (List.replicate k ⟨v, 0⟩ ++ ts) v =
      List.replicate k v ++ decodeTokens ts v := by
  induction k with
  | zero => simp
  | succ n ih => simp [decodeTokens, hv0, hv15, ih, List.replicate_succ]

theorem decodeTokens_codeValueLoop (r v : Nat) :
    v ≠ 0 → v ≤ 15 → ∀ ts : List HuffmanTreeToken,
      decodeTokens (codeValueLoop r v ++ ts) v =
        List.replicate r v ++ decodeTokens ts v := by
  induction r, v using codeValueLoop.induct with
  | case1 v =>
    intro hv0 hv15 ts
    simp [codeValueLoop]
  | case2 r v h0 h3 =>
    intro hv0 hv15 ts
    rw [codeValueLoop]
    simp only [if_neg h0, if_pos h3]
    exact decodeTokens_replicate_value v hv0 hv15 r ts
  | case3 r v h0 h3 h7 =>
    intro hv0 hv15 ts
    rw [codeValueLoop]
    simp only [if_neg h0, if_neg h3, if_pos h7]
    have : 3 + (r - 3) = r := by omega
    simp [decodeTokens, this]
  | case4 r v h0 h3 h7 ih =>
    intro hv0 hv15 ts
    rw [codeValueLoop]
    simp only [if_neg h0, if_neg h3, if_neg h7, List.cons_append]
    have hd : decodeTokens (⟨16, 3⟩ :: (codeValueLoop (r - 6) v ++ ts)) v
        = List.replicate 6 v ++ decodeTokens (codeValueLoop (r - 6) v ++ ts) v := by
      simp [decodeTokens]
    have hr : (6 : Nat) + (r - 6) = r := by omega
    rw [hd, ih hv0 hv15 ts, ← List.append_assoc, ← List.replicate_add, hr]

theorem decodeTokens_codeRepeatedValues (v prev : Nat) (hv0 : v ≠ 0)
    (hv15 : v ≤ 15) (r : Nat) (hr : 1 ≤ r) (ts : List HuffmanTreeToken) :
    decodeTokens (codeRepeatedValues r v prev ++ ts) prev =
      List.replicate r v ++ decodeTokens ts v := by
  rw [codeRepeatedValues]
  by_cases hvp : v = prev
  · subst hvp
    rw [if_neg (by simp : ¬ (v ≠ v))]
    exact decodeTokens_codeValueLoop r v hv0 hv15 ts
  · rw [if_pos hvp, List.cons_append]
    have hd : decodeTokens (⟨v, 0⟩ :: (codeValueLoop (r - 1) v ++ ts)) prev
        = v :: decodeTokens (codeValueLoop (r - 1) v ++ ts) v := by
      simp [decodeTokens, hv15, hv0]
    rw [hd, decodeTokens_codeValueLoop (r - 1) v hv0 hv15 ts]
    have h1 : r = 1 + (r - 1) := by omega
    rw [h1, List.replicate_add]
    simp

theorem replicate_cons_append (v : Nat) (n : Nat) (l : List Nat) :
    v :: (List.replicate n v ++ l) = List.replicate (1 + n) v ++ l := by
  rw [Nat.add_comm 1 n, List.replicate_succ]
  rfl

theorem run_decomposition (v : Nat) (rest : List Nat) :
    v :: rest =
      List.replicate (1 + (rest.takeWhile (· == v)).length) v ++
        rest.dropWhile (· == v) := by
  have htw : rest.takeWhile (· == v) =
      List.replicate (rest.takeWhile (· == v)).length v := by
    rw [List.eq_replicate_iff]
    exact ⟨rfl, fun b hb => by simpa using List.mem_takeWhile_imp hb⟩
  conv_lhs => rw [← List.takeWhile_append_dropWhile (p := (· == v)) (l := rest)]
  rw [← replicate_cons_append, ← htw]

/-- Round trip of the tokenizer against the wire semantics, for any value
of the shared initial `prev` register. -/
theorem decodeTokens_createTokens (code_lengths : List Nat)
    (h15 : ∀ x ∈ code_lengths, x ≤ 15) (prev : Nat) :
    decodeTokens (createTokens code_lengths prev) prev = code_lengths := by
  induction code_lengths, prev using createTokens.induct with
  | case1 prev => simp [createTokens, decodeTokens]
  | case2 prev rest tail ih =>
    rw [createTokens]
    simp only [reduceIte]
    rw [decodeTokens_codeRepeatedZeros]
    rw [ih (fun x hx => h15 x (List.mem_cons_of_mem _ (List.dropWhile_sublist _ |>.mem hx)))]
    exact (run_decomposition 0 rest).symm
  | case3 prev value rest tail hv0 ih =>
    rw [createTokens]
    simp only [hv0, reduceIte]
    rw [decodeTokens_codeRepeatedValues value prev hv0
      (h15 value (List.mem_cons_self _ _)) _ (by omega)]
    rw [ih (fun x hx => h15 x (List.mem_cons_of_mem _ (List.dropWhile_sublist _ |>.mem hx)))]
    exact (run_decomposition value rest).symm

theorem takeWhile_zero_replicate_append (k v : Nat) (hv : v ≠ 0)
    (rest : List Nat) :
    ((List.replicate k (0 : Nat) ++ v :: rest).takeWhile (· == 0)) =
      List.replicate k 0 := by
  induction k with
  | zero => simp [List.takeWhile_cons, hv]
  | succ n ih => simp [List.replicate_succ, List.takeWhile_cons, ih]

theorem dropWhile_zero_replicate_append (k v : Nat) (hv : v ≠ 0)
    (rest : List Nat) :
    ((List.replicate k (0 : Nat) ++ v :: rest).dropWhile (· == 0)) = v :: rest := by
  induction k with
  | zero => simp [List.dropWhile_cons, hv]
  | succ n ih => simp [List.replicate_succ, List.dropWhile_cons, ih]

theorem createTokens_nonzero_head (v prev : Nat) (rest : List Nat)
    (hv0 : v ≠ 0) (hvp : v ≠ prev) :
    createTokens (v :: rest) prev =
      ⟨v, 0⟩ :: (codeValueLoop (rest.takeWhile (· == v)).length v ++
        createTokens (rest.dropWhile (· == v)) v) := by
  rw [createTokens]
  simp only [hv0, reduceIte]
  rw [codeRepeatedValues, if_pos hvp]
  have : 1 + (rest.takeWhile (· == v)).length - 1 =
      (rest.takeWhile (· == v)).length := by omega
  rw [this, List.cons_append]

/-- Amended claim C6: the first non-zero run starts with its literal token
provided its value differs from the initial `prev_value` sentinel 8 (a
run of value exactly 8 at the start is emitted without a literal). -/
theorem c6_first_nonzero_run_starts_with_literal (z v : Nat) (rest : List Nat)
    (hv0 : v ≠ 0) (hv8 : v ≠ 8) (hv15 : v ≤ 15) :
    ∃ ts, createTokens (List.replicate z 0 ++ v :: rest) 8 =
      codeRepeatedZeros z ++ ⟨v, 0⟩ :: ts := by
  refine ⟨codeValueLoop (rest.takeWhile (· == v)).length v ++
    createTokens (rest.dropWhile (· == v)) v, ?_⟩
  cases z with
  | zero =>
    simp only [List.replicate, List.nil_append]
    rw [createTokens_nonzero_head v 8 rest hv0 hv8]
    rw [show codeRepeatedZeros 0 = [] from by rw [codeRepeatedZeros]; simp]
    rw [List.nil_append]
  | succ n =>
    rw [List.replicate_succ, List.cons_append, createTokens]
    simp only [reduceIte]
    rw [takeWhile_zero_replicate_append n v hv0 rest,
      dropWhile_zero_replicate_append n v hv0 rest]
    rw [createTokens_nonzero_head v 8 rest hv0 hv8]
    simp only [List.length_replicate]
    rw [show 1 + n = n + 1 from by omega]

theorem c6_witness :
    ((3 : Nat) ≠ 0 ∧ (3 : Nat) ≠ 8 ∧ (3 : Nat) ≤ 15) ∧
      ∃ ts, createTokens (List.replicate 2 0 ++ 3 :: []) 8 =
        codeRepeatedZeros 2 ++ ⟨3, 0⟩ :: ts :=
  ⟨by omega, c6_first_nonzero_run_starts_with_literal 2 3 []
    (by omega) (by omega) (by omega)⟩

set_option maxRecDepth 4096 in
/-- Claim C6 as stated is false: for `code_lengths = [8,8,8]` the first
(and only) non-zero run has value 8 = the initial `prev_value`, so no
literal token is emitted at all; the whole array is encoded as the single
repeat token `{16, 0}`. -/
theorem c6_counterexample :
    vp8lCreateCompressedHuffmanTree [8, 8, 8] = [⟨16, 0⟩] ∧
      (⟨16, 0⟩ : HuffmanTreeToken) ≠ ⟨8, 0⟩ := by
  constructor
  · rw [vp8lCreateCompressedHuffmanTree]
    simp [createTokens, codeRepeatedValues, codeValueLoop]
  · decide

set_option maxRecDepth 4096 in
/-- Claim C2 as stated is false: `[8,8,8]` encodes to the single token
`{16, 0}`, whose expansion refers to "the previously emitted non-zero
length" although no length has been emitted, so a decoder without the
prev = 8 initialization convention cannot reconstruct the input. -/
theorem c2_counterexample :
    vp8lCreateCompressedHuffmanTree [8, 8, 8] = [⟨16, 0⟩] ∧
      decodeTokensStrict (vp8lCreateCompressedHuffmanTree [8, 8, 8]) none ≠
        some [8, 8, 8] := by
  have h : vp8lCreateCompressedHuffmanTree [8, 8, 8] = [⟨16, 0⟩] := by
    rw [vp8lCreateCompressedHuffmanTree]
    simp [createTokens, codeRepeatedValues, codeValueLoop]
  refine ⟨h, ?_⟩
  rw [h]
  decide

/-- Amended claim C2: with the decoder's previous-length register starting
at 8 (the same sentinel the encoder uses, which is also the convention of
the VP8L wire format), expanding the token stream reconstructs exactly the
original `code_lengths` array, for entries in `0..15`. -/
theorem c2_token_roundtrip (code_lengths : List Nat)
    (h15 : ∀ x ∈ code_lengths, x ≤ 15) :
    decodeTokens (vp8lCreateCompressedHuffmanTree code_lengths) 8 =
      code_lengths :=
  decodeTokens_createTokens code_lengths h15 8

theorem c2_token_roundtrip_witness :
    (∀ x ∈ [0, 2, 8, 8, 8, 1], x ≤ 15) ∧
      decodeTokens (vp8lCreateCompressedHuffmanTree [0, 2, 8, 8, 8, 1]) 8 =
        [0, 2, 8, 8, 8, 1] :=
  ⟨by decide, c2_token_roundtrip [0, 2, 8, 8, 8, 1] (by decide)⟩

/-- Claim C7 as stated is false: a maximal run of exactly 20 zeros is
encoded as the single token `{18, 9}` (11 + 9 = 20 zeros), not as
`{18, 7}` followed by two literal zeros. -/
theorem c7_counterexample :
    codeRepeatedZeros 20 = [⟨18, 9⟩] ∧
      codeRepeatedZeros 20 ≠ [⟨18, 7⟩, ⟨0, 0⟩, ⟨0, 0⟩] := by
  have h : codeRepeatedZeros 20 = [⟨18, 9⟩] := by
    rw [codeRepeatedZeros]
    norm_num
  exact ⟨h, by rw [h]; decide⟩

/-- Amended claim C7: a run of exactly 20 zeros yields the single token
`{18, 9}`; and (as claimed) no token ever emitted by `CodeRepeatedZeros`
represents more than 138 repeats. -/
theorem c7_zero_run_tokens :
    codeRepeatedZeros 20 = [⟨18, 9⟩] ∧
      ∀ r : Nat, ∀ t ∈ codeRepeatedZeros r, tokenSpan t ≤ 138 := by
  constructor
  · rw [codeRepeatedZeros]
    norm_num
  · intro r
    induction r using codeRepeatedZeros.induct with
    | case1 => rw [codeRepeatedZeros]; simp
    | case2 r h0 h3 =>
      rw [codeRepeatedZeros]
      simp only [if_neg h0, if_pos h3]
      intro t ht
      rw [List.eq_of_mem_replicate ht]
      simp [tokenSpan]
    | case3 r h0 h3 h11 =>
      rw [codeRepeatedZeros]
      simp only [if_neg h0, if_neg h3, if_pos h11]
      intro t ht
      rw [List.mem_singleton.mp ht]
      simp only [tokenSpan]
      norm_num
      omega
    | case4 r h0 h3 h11 h139 =>
      rw [codeRepeatedZeros]
      simp only [if_neg h0, if_neg h3, if_neg h11, if_pos h139]
      intro t ht
      rw [List.mem_singleton.mp ht]
      simp only [tokenSpan]
      norm_num
      omega
    | case5 r h0 h3 h11 h139 ih =>
      rw [codeRepeatedZeros]
      simp only [if_neg h0, if_neg h3, if_neg h11, if_neg h139]
      intro t ht
      rcases List.mem_cons.mp ht with h | h
      · rw [h]; simp [tokenSpan]
      · exact ih t h

theorem c7_zero_run_tokens_witness : tokenSpan ⟨18, 9⟩ ≤ 138 :=
  c7_zero_run_tokens.2 20 ⟨18, 9⟩ (by rw [c7_zero_run_tokens.1]; exact List.mem_singleton.mpr rfl)

theorem length_codeValueLoop (r v : Nat) : (codeValueLoop r v).length ≤ r := by
  induction r, v using codeValueLoop.induct with
  | case1 v => rw [codeValueLoop]; simp
  | case2 r v h0 h3 =>
    rw [codeValueLoop]
    simp [if_neg h0, if_pos h3]
  | case3 r v h0 h3 h7 =>
    rw [codeValueLoop]
    simp only [if_neg h0, if_neg h3, if_pos h7, List.length_singleton]
    omega
  | case4 r v h0 h3 h7 ih =>
    rw [codeValueLoop]
    simp only [if_neg h0, if_neg h3, if_neg h7, List.length_cons]
    omega

theorem length_codeRepeatedZeros (r : Nat) :
    (codeRepeatedZeros r).length ≤ r := by
  induction r using codeRepeatedZeros.induct with
  | case1 => rw [codeRepeatedZeros]; simp
  | case2 r h0 h3 =>
    rw [codeRepeatedZeros]
    simp [if_neg h0, if_pos h3]
  | case3 r h0 h3 h11 =>
    rw [codeRepeatedZeros]
    simp only [if_neg h0, if_neg h3, if_pos h11, List.length_singleton]
    omega
  | case4 r h0 h3 h11 h139 =>
    rw [codeRepeatedZeros]
    simp only [if_neg h0, if_neg h3, if_neg h11, if_pos h139, List.length_singleton]
    omega
  | case5 r h0 h3 h11 h139 ih =>
    rw [codeRepeatedZeros]
    simp only [if_neg h0, if_neg h3, if_neg h11, if_neg h139, List.length_cons]
    omega

theorem length_codeRepeatedValues (r v prev : Nat) (hr : 1 ≤ r) :
    (codeRepeatedValues r v prev).length ≤ r := by
  rw [codeRepeatedValues]
  by_cases hvp : v = prev
  · rw [if_neg (by simp [hvp] : ¬ v ≠ prev)]
    exact length_codeValueLoop r v
  · rw [if_pos hvp]
    simp only [List.length_cons]
    have := length_codeValueLoop (r - 1) v
    omega

/-- Claim C10: the tokenizer emits at most one token per code-length
position, so at most `num_symbols` tokens in total; with
`max_tokens ≥ num_symbols`, the C assertion `tokens <= ending_token`
therefore never fires. -/
theorem c10_token_count_bounded (code_lengths : List Nat) (prev : Nat) :
    (createTokens code_lengths prev).length ≤ code_lengths.length := by
  induction code_lengths, prev using createTokens.induct with
  | case1 prev => rw [createTokens]; simp
  | case2 prev rest tail ih =>
    rw [createTokens]
    simp only [reduceIte, List.length_append, List.length_cons]
    have htail : tail = rest.dropWhile (· == (0 : Nat)) := rfl
    rw [htail] at ih
    have h1 := length_codeRepeatedZeros (1 + (rest.takeWhile (· == (0 : Nat))).length)
    have h2 : (rest.takeWhile (· == (0 : Nat))).length +
        (rest.dropWhile (· == (0 : Nat))).length = rest.length := by
      rw [← List.length_append, List.takeWhile_append_dropWhile]
    omega
  | case3 prev value rest tail hv0 ih =>
    rw [createTokens]
    simp only [hv0, reduceIte, List.length_append, List.length_cons]
    have htail : tail = rest.dropWhile (· == value) := rfl
    rw [htail] at ih
    have h1 := length_codeRepeatedValues (1 + (rest.takeWhile (· == value)).length)
      value prev (by omega)
    have h2 : (rest.takeWhile (· == value)).length +
        (rest.dropWhile (· == value)).length = rest.length := by
      rw [← List.length_append, List.takeWhile_append_dropWhile]
    omega

/-! ## Theorems about `OptimizeHuffmanForRle` pass 3 (claim C9) -/

/-- Claim C9 as stated is false: for `counts = [1,0,0,0,9]` the stride
`[1,0,0,0]` (length 4, sum 1) is collapsed, and the C code writes 1 to
all four positions (the rounded mean 0 is clamped up to 1), while the
claim's rule (rounded mean, no clamp) would write 0. -/
theorem c9_counterexample :
    optimizeHuffmanForRle [1, 0, 0, 0, 9] = [1, 1, 1, 1, 9] ∧
      optimizeHuffmanForRleSpecC9 [1, 0, 0, 0, 9] = [0, 0, 0, 0, 9] :=
  ⟨rfl, rfl⟩

/-- Amended claim C9: a collapsed stride is overwritten with the rounded
mean clamped below to 1, except that an all-zero-sum stride is
overwritten with 0. -/
theorem c9_collapse_writes_clamped_mean (counts : List Nat) :
    optimizeHuffmanForRle counts =
      optimizeHuffmanForRleWith collapseCountAmended counts := by
  have h : collapseCount = collapseCountAmended := by
    funext s st
    simp only [collapseCount, collapseCountAmended]
    by_cases hs : s = 0
    · simp [hs]
    · simp only [hs, if_neg, reduceIte]
      split <;> omega
  rw [optimizeHuffmanForRle, h]

/-! ## Theorems about the merge loop tie-breaking (claim C8) -/

/-- Claim C8 as stated is false: with histogram `[1,1,2]` the sorted leaf
array is `[(2, leaf 2), (1, leaf 0), (1, leaf 1)]`; merging the two
count-1 leaves yields an internal node of count 2, which ties leaf 2 and
is inserted *before* it, not after it.  Moreover `CompareHuffmanTrees`
orders an internal node (`value_ = -1`) *before* a leaf of equal count,
not after it. -/
theorem c8_counterexample :
    sortTrees (initialLeaves [1, 1, 2] 1) =
        [(2, HTree.leaf 2), (1, HTree.leaf 0), (1, HTree.leaf 1)] ∧
      mergeStep [(2, HTree.leaf 2), (1, HTree.leaf 0), (1, HTree.leaf 1)] =
        [(2, HTree.node (HTree.leaf 0) (HTree.leaf 1)), (2, HTree.leaf 2)] ∧
      mergeStep [(2, HTree.leaf 2), (1, HTree.leaf 0), (1, HTree.leaf 1)] ≠
        [(2, HTree.leaf 2), (2, HTree.node (HTree.leaf 0) (HTree.leaf 1))] ∧
      compareHuffmanTrees (2, -1) (2, 5) = -1 :=
  ⟨rfl, rfl, by decide, rfl⟩

/-- Amended claim C8: the re-insertion scan never consults `value_`; the
merged internal node is inserted before the first entry whose count is
`<=` the merged sum, hence *before* all entries that tie it exactly -
the tied entries stay nearer the tail of the descending array and are
consumed by the merge loop earlier than the new internal node. -/
theorem c8_internal_node_inserted_before_ties (c : Nat) (t : HTree)
    (l : List (Nat × HTree)) :
    insertSortedNode c t l =
      l.takeWhile (fun p => c < p.1) ++ (c, t) :: l.dropWhile (fun p => c < p.1) := by
  induction l with
  | nil => simp [insertSortedNode]
  | cons p rest ih =>
    rw [insertSortedNode]
    by_cases h : p.1 ≤ c
    · rw [if_pos h]
      have hd : (decide (c < p.1)) = false := by simp; omega
      simp [List.takeWhile_cons, List.dropWhile_cons, hd]
    · rw [if_neg h]
      have hd : (decide (c < p.1)) = true := by simp; omega
      simp [List.takeWhile_cons, List.dropWhile_cons, hd, ih]

/-! ## Theorems about `GenerateOptimalTree` (claims C1, C3) -/

theorem foldl_max_ge (xs : List Nat) (x : Nat) :
    x ≤ xs.foldl max x ∧ ∀ y ∈ xs, y ≤ xs.foldl max x := by
  induction xs generalizing x with
  | nil => simp
  | cons a xs ih =>
    refine ⟨?_, ?_⟩
    · calc x ≤ max x a := Nat.le_max_left x a
        _ ≤ (a :: xs).foldl max x := by
          rw [List.foldl_cons]
          exact (ih (max x a)).1
    · intro y hy
      rw [List.foldl_cons]
      rcases List.mem_cons.mp hy with h | h
      · subst h
        calc y ≤ max x y := Nat.le_max_right x y
          _ ≤ xs.foldl max (max x y) := (ih (max x y)).1
      · exact (ih (max x a)).2 y h

theorem le_of_maxDepthOf_le (d : List Nat) (c : Nat) (h : maxDepthOf d ≤ c) :
    ∀ x ∈ d, x ≤ c := by
  cases d with
  | nil => simp
  | cons x xs =>
    intro y hy
    rw [maxDepthOf] at h
    rcases List.mem_cons.mp hy with h1 | h1
    · subst h1
      exact le_trans (foldl_max_ge xs y).1 h
    · exact le_trans ((foldl_max_ge xs x).2 y h1) h

theorem generateLoop_maxDepth (hist : List Nat) (limit : Nat) :
    ∀ (fuel count_min : Nat) (depths : List Nat) (d : List Nat),
      generateLoop hist limit fuel count_min depths = some d →
        maxDepthOf d ≤ limit := by
  intro fuel
  induction fuel with
  | zero =>
    intro cm depths d h
    simp [generateLoop] at h
  | succ n ih =>
    intro cm depths d h
    rw [generateLoop] at h
    by_cases hc : maxDepthOf (oneIteration hist cm depths) ≤ limit
    · rw [if_pos hc] at h
      injection h with h
      subst h
      exact hc
    · rw [if_neg hc] at h
      exact ih _ _ d h

/-- Claim C1: whenever `GenerateOptimalTree` returns successfully, every
entry of the returned `bit_depths` array is at most `tree_depth_limit`
(the retry loop exits only when the recomputed maximum depth satisfies
the limit). -/
theorem c1_depth_limit_respected (hist : List Nat) (tree_depth_limit : Nat)
    (depths0 : List Nat) (fuel : Nat) (d : List Nat)
    (hpre : (usedSymbols hist).length ≤ 2 ^ (tree_depth_limit - 1))
    (hsucc : generateOptimalTree hist tree_depth_limit depths0 fuel = some d) :
    ∀ x ∈ d, x ≤ tree_depth_limit :=
  le_of_maxDepthOf_le d tree_depth_limit
    (generateLoop_maxDepth hist tree_depth_limit fuel 1 depths0 d hsucc)

theorem c1_depth_limit_respected_witness :
    ((usedSymbols [1, 1, 1, 1]).length ≤ 2 ^ (3 - 1) ∧
      generateOptimalTree [1, 1, 1, 1] 3 [0, 0, 0, 0] 5 = some [2, 2, 2, 2]) ∧
      ∀ x ∈ [2, 2, 2, 2], x ≤ 3 :=
  ⟨⟨by decide, rfl⟩,
    c1_depth_limit_respected [1, 1, 1, 1] 3 [0, 0, 0, 0] 5 [2, 2, 2, 2]
      (by decide) rfl⟩

/-! ## Structural lemmas for the merge loop and leaf depths -/

theorem getD_set_self (l : List Nat) (i a : Nat) (h : i < l.length) :
    (l.set i a).getD i 0 = a := by
  rw [List.getD_eq_getElem _ _ (by simpa using h)]
  simp [List.getElem_set]

theorem getD_set_ne (l : List Nat) (i j a : Nat) (h : i ≠ j) :
    (l.set i a).getD j 0 = l.getD j 0 := by
  by_cases hj : j < l.length
  · rw [List.getD_eq_getElem _ _ (by simpa using hj), List.getD_eq_getElem _ _ hj]
    simp [List.getElem_set, h]
  · rw [List.getD_eq_default _ _ (by simpa using Nat.le_of_not_lt hj),
      List.getD_eq_default _ _ (Nat.le_of_not_lt hj)]

theorem length_insertSortedNode (c : Nat) (t : HTree) (l : List (Nat × HTree)) :
    (insertSortedNode c t l).length = l.length + 1 := by
  induction l with
  | nil => rfl
  | cons p rest ih =>
    rw [insertSortedNode]
    by_cases h : p.1 ≤ c
    · rw [if_pos h]; rfl
    · rw [if_neg h]
      simp [ih]

theorem mergeStep_reverse_eq (l : List (Nat × HTree)) (t1 t2 : Nat × HTree)
    (rest : List (Nat × HTree)) (hr : l.reverse = t1 :: t2 :: rest) :
    mergeStep l = insertSortedNode (t2.1 + t1.1) (HTree.node t2.2 t1.2)
      rest.reverse := by
  rw [mergeStep, hr]

theorem length_mergeStep (l : List (Nat × HTree)) (h2 : 2 ≤ l.length) :
    (mergeStep l).length = l.length - 1 := by
  match hr : l.reverse with
  | [] => rw [← l.length_reverse, hr] at h2; simp at h2
  | [t1] => rw [← l.length_reverse, hr] at h2; simp at h2
  | t1 :: t2 :: rest =>
    rw [mergeStep_reverse_eq l t1 t2 rest hr, length_insertSortedNode]
    have : l.length = rest.length + 2 := by
      rw [← l.length_reverse, hr]
      simp
    simp [this]

theorem buildRoot_length_eq_one (fuel : Nat) :
    ∀ l : List (Nat × HTree), 1 ≤ l.length → l.length ≤ fuel + 1 →
      (buildRoot fuel l).length = 1 := by
  induction fuel with
  | zero =>
    intro l h1 h2
    rw [buildRoot]
    omega
  | succ n ih =>
    intro l h1 h2
    rw [buildRoot]
    by_cases hl : 2 ≤ l.length
    · rw [if_pos hl]
      have hm := length_mergeStep l hl
      exact ih (mergeStep l) (by omega) (by omega)
    · rw [if_neg hl]
      omega

theorem leafValues_append (a b : List (Nat × HTree)) :
    leafValues (a ++ b) = leafValues a ++ leafValues b := by
  simp [leafValues]

theorem leafValues_perm (l1 l2 : List (Nat × HTree)) (h : l1.Perm l2) :
    (leafValues l1).Perm (leafValues l2) :=
  List.Perm.flatMap_right _ h

theorem leafValues_insertSortedNode (c : Nat) (t : HTree)
    (l : List (Nat × HTree)) :
    (leafValues (insertSortedNode c t l)).Perm (t.leaves ++ leafValues l) := by
  induction l with
  | nil => simp [insertSortedNode, leafValues]
  | cons p rest ih =>
    rw [insertSortedNode]
    by_cases h : p.1 ≤ c
    · rw [if_pos h]
      simp only [leafValues, List.flatMap_cons]
      exact List.Perm.refl _
    · rw [if_neg h]
      simp only [leafValues, List.flatMap_cons] at ih ⊢
      exact (List.Perm.append_left p.2.leaves ih).trans
        (List.perm_append_comm_assoc _ _ _)

theorem leafValues_mergeStep (l : List (Nat × HTree)) :
    (leafValues (mergeStep l)).Perm (leafValues l) := by
  match hr : l.reverse with
  | [] =>
    have h0 : mergeStep l = l := by rw [mergeStep, hr]
    rw [h0]
  | [t1] =>
    have h0 : mergeStep l = l := by rw [mergeStep, hr]
    rw [h0]
  | t1 :: t2 :: rest =>
    rw [mergeStep_reverse_eq l t1 t2 rest hr]
    have hl : l = rest.reverse ++ [t2, t1] := by
      simpa using congrArg List.reverse hr
    refine (leafValues_insertSortedNode _ _ _).trans ?_
    rw [hl, leafValues_append]
    simp only [HTree.leaves, leafValues, List.flatMap_cons, List.flatMap_nil,
      List.append_nil]
    exact List.perm_append_comm

theorem leafValues_buildRoot (fuel : Nat) :
    ∀ l : List (Nat × HTree), (leafValues (buildRoot fuel l)).Perm (leafValues l) := by
  induction fuel with
  | zero => intro l; rw [buildRoot]
  | succ n ih =>
    intro l
    rw [buildRoot]
    by_cases hl : 2 ≤ l.length
    · rw [if_pos hl]
      exact (ih (mergeStep l)).trans (leafValues_mergeStep l)
    · rw [if_neg hl]

theorem insertByTreeLE_perm (x : Nat × HTree) (l : List (Nat × HTree)) :
    (insertByTreeLE x l).Perm (x :: l) := by
  induction l with
  | nil => rfl
  | cons y ys ih =>
    rw [insertByTreeLE]
    by_cases h : treeLE x y
    · rw [if_pos h]
    · rw [if_neg h]
      exact (List.Perm.cons y ih).trans (List.Perm.swap x y ys)

theorem sortTrees_perm (l : List (Nat × HTree)) : (sortTrees l).Perm l := by
  induction l with
  | nil => rfl
  | cons x xs ih =>
    rw [sortTrees]
    exact (insertByTreeLE_perm x (sortTrees xs)).trans (List.Perm.cons x ih)

theorem leafValues_initialLeaves (hist : List Nat) (cm : Nat) :
    leafValues (initialLeaves hist cm) = usedSymbols hist := by
  rw [initialLeaves, leafValues, List.flatMap_map]
  simp [HTree.leaves]

theorem leafDepths_map_fst (t : HTree) (d : Nat) :
    (t.leafDepths d).map Prod.fst = t.leaves := by
  induction t generalizing d with
  | leaf v => rfl
  | node l r ihl ihr => simp [HTree.leafDepths, HTree.leaves, ihl, ihr]

theorem setBitDepths_eq_writeAll (t : HTree) (depths : List Nat) (lvl : Nat) :
    setBitDepths t depths lvl = writeAll (t.leafDepths lvl) depths := by
  induction t generalizing depths lvl with
  | leaf v => rfl
  | node l r ihl ihr =>
    rw [setBitDepths, HTree.leafDepths, writeAll, List.foldl_append]
    rw [ihl, ihr]
    rfl

theorem leafDepths_level_le (t : HTree) (d : Nat) :
    ∀ p ∈ t.leafDepths d, d ≤ p.2 := by
  induction t generalizing d with
  | leaf v => simp [HTree.leafDepths]
  | node l r ihl ihr =>
    intro p hp
    rw [HTree.leafDepths] at hp
    rcases List.mem_append.mp hp with h | h
    · exact le_trans (Nat.le_succ d) (ihl (d + 1) p h)
    · exact le_trans (Nat.le_succ d) (ihr (d + 1) p h)

theorem kraft_leafDepths (t : HTree) (d : Nat) :
    ((t.leafDepths d).map (fun p => (1 / 2 ^ p.2 : ℚ))).sum = 1 / 2 ^ d := by
  induction t generalizing d with
  | leaf v => simp [HTree.leafDepths]
  | node l r ihl ihr =>
    rw [HTree.leafDepths, List.map_append, List.sum_append, ihl, ihr, pow_succ]
    rw [div_add_div_same]
    rw [show (1 : ℚ) + 1 = 2 from by norm_num]
    rw [mul_comm, ← div_div]
    norm_num

/-! ## Lookup lemmas for the depth-array writes -/

theorem length_writeAll (pairs : List (Nat × Nat)) (arr : List Nat) :
    (writeAll pairs arr).length = arr.length := by
  induction pairs generalizing arr with
  | nil => rfl
  | cons p rest ih =>
    rw [writeAll, List.foldl_cons]
    rw [show List.foldl (fun a p => a.set p.1 p.2) (arr.set p.1 p.2) rest =
      writeAll rest (arr.set p.1 p.2) from rfl]
    rw [ih, List.length_set]

theorem getD_writeAll_not_mem (pairs : List (Nat × Nat)) (arr : List Nat)
    (i : Nat) (h : i ∉ pairs.map Prod.fst) :
    (writeAll pairs arr).getD i 0 = arr.getD i 0 := by
  induction pairs generalizing arr with
  | nil => rfl
  | cons p rest ih =>
    rw [List.map_cons] at h
    rw [writeAll, List.foldl_cons]
    rw [show List.foldl (fun a p => a.set p.1 p.2) (arr.set p.1 p.2) rest =
      writeAll rest (arr.set p.1 p.2) from rfl]
    rw [ih _ (fun hm => h (List.mem_cons_of_mem _ hm))]
    exact getD_set_ne arr p.1 i p.2 (fun he => h (he ▸ List.mem_cons_self _ _))

theorem getD_writeAll_mem (pairs : List (Nat × Nat)) (arr : List Nat)
    (v d : Nat) (hnd : (pairs.map Prod.fst).Nodup) (hm : (v, d) ∈ pairs)
    (hv : v < arr.length) :
    (writeAll pairs arr).getD v 0 = d := by
  induction pairs generalizing arr with
  | nil => simp at hm
  | cons p rest ih =>
    rw [List.map_cons, List.nodup_cons] at hnd
    rw [writeAll, List.foldl_cons]
    rw [show List.foldl (fun a p => a.set p.1 p.2) (arr.set p.1 p.2) rest =
      writeAll rest (arr.set p.1 p.2) from rfl]
    rcases List.mem_cons.mp hm with h | h
    · have hp : p.1 = v ∧ p.2 = d := by
        constructor <;> rw [← h]
      rcases hp with ⟨h1, h2⟩
      subst h1
      subst h2
      rw [getD_writeAll_not_mem rest _ p.1 hnd.1]
      exact getD_set_self arr p.1 p.2 hv
    · exact ih _ hnd.2 h (by rw [List.length_set]; exact hv)

theorem mem_usedSymbols (hist : List Nat) (i : Nat) :
    i ∈ usedSymbols hist ↔ i < hist.length ∧ hist.getD i 0 ≠ 0 := by
  simp [usedSymbols, List.mem_filter, List.mem_range]

theorem usedSymbols_nodup (hist : List Nat) : (usedSymbols hist).Nodup :=
  List.Nodup.filter _ (List.nodup_range _)

/-! ## Analysis of one iteration of `GenerateOptimalTree` -/

theorem length_initialLeaves (hist : List Nat) (cm : Nat) :
    (initialLeaves hist cm).length = (usedSymbols hist).length := by
  rw [initialLeaves, List.length_map]

theorem length_sortTrees (l : List (Nat × HTree)) :
    (sortTrees l).length = l.length :=
  (sortTrees_perm l).length_eq

theorem buildRoot_of_lt_two (fuel : Nat) (l : List (Nat × HTree))
    (h : l.length < 2) : buildRoot fuel l = l := by
  cases fuel with
  | zero => rfl
  | succ n =>
    rw [buildRoot, if_neg (by omega)]

theorem buildRoot_node (fuel : Nat) :
    ∀ l : List (Nat × HTree), 2 ≤ l.length → l.length ≤ fuel + 1 →
      ∃ (c : Nat) (a b : HTree), buildRoot fuel l = [(c, HTree.node a b)] := by
  induction fuel with
  | zero =>
    intro l h2 hf
    omega
  | succ n ih =>
    intro l h2 hf
    rw [buildRoot, if_pos h2]
    by_cases h3 : 2 ≤ (mergeStep l).length
    · exact ih (mergeStep l) h3 (by have := length_mergeStep l h2; omega)
    · have hlen2 : l.length = 2 := by
        have := length_mergeStep l h2
        omega
    -- a two-entry array merges into a single internal node
      obtain ⟨t1, t2, hr⟩ := List.length_eq_two.mp
        (by rw [List.length_reverse]; exact hlen2)
      rw [mergeStep_reverse_eq l t1 t2 [] hr]
      rw [show ([] : List (Nat × HTree)).reverse = [] from rfl]
      rw [show insertSortedNode (t2.1 + t1.1) (HTree.node t2.2 t1.2) [] =
        [(t2.1 + t1.1, HTree.node t2.2 t1.2)] from rfl]
      exact ⟨t2.1 + t1.1, t2.2, t1.2, buildRoot_of_lt_two n _ (by simp)⟩

/-- With at least two used symbols, one iteration builds a full merge tree
whose leaves are exactly the used symbols, and writes its leaf depths. -/
theorem oneIteration_spec_two (hist : List Nat) (cm : Nat) (depths : List Nat)
    (h2 : 2 ≤ (usedSymbols hist).length) :
    ∃ t : HTree, oneIteration hist cm depths = writeAll (t.leafDepths 0) depths ∧
      (HTree.leaves t).Perm (usedSymbols hist) ∧
      (∀ p ∈ t.leafDepths 0, 1 ≤ p.2) := by
  have hlen : (sortTrees (initialLeaves hist cm)).length =
      (usedSymbols hist).length := by
    rw [length_sortTrees, length_initialLeaves]
  obtain ⟨c, a, b, hp⟩ := buildRoot_node (sortTrees (initialLeaves hist cm)).length
    (sortTrees (initialLeaves hist cm)) (by omega) (by omega)
  refine ⟨HTree.node a b, ?_, ?_, ?_⟩
  · have hcond : 2 ≤ (sortTrees (initialLeaves hist cm)).length := by
      rw [hlen]; exact h2
    rw [oneIteration]
    rw [if_pos hcond, hp]
    exact setBitDepths_eq_writeAll (HTree.node a b) depths 0
  · have h1 : (leafValues [(c, HTree.node a b)]).Perm
        (leafValues (sortTrees (initialLeaves hist cm))) := by
      rw [← hp]
      exact leafValues_buildRoot _ _
    have h2p : (leafValues (sortTrees (initialLeaves hist cm))).Perm
        (usedSymbols hist) := by
      rw [← leafValues_initialLeaves hist cm]
      exact leafValues_perm _ _ (sortTrees_perm _)
    have h3 : leafValues [(c, HTree.node a b)] = (HTree.node a b).leaves := by
      simp [leafValues]
    rw [← h3]
    exact h1.trans h2p
  · intro p hp2
    rw [HTree.leafDepths] at hp2
    rcases List.mem_append.mp hp2 with h | h
    · exact leafDepths_level_le a 1 p h
    · exact leafDepths_level_le b 1 p h

/-- With exactly one used symbol `j`, one iteration sets `bit_depths[j] = 1`. -/
theorem oneIteration_spec_one (hist : List Nat) (cm : Nat) (depths : List Nat)
    (j : Nat) (h1 : usedSymbols hist = [j]) :
    oneIteration hist cm depths = depths.set j 1 := by
  have hinit : initialLeaves hist cm =
      [(if hist.getD j 0 < cm then cm else hist.getD j 0, HTree.leaf j)] := by
    rw [initialLeaves, h1, List.map_singleton]
  have hsort : sortTrees (initialLeaves hist cm) =
      [(if hist.getD j 0 < cm then cm else hist.getD j 0, HTree.leaf j)] := by
    apply List.perm_singleton.mp
    rw [← hinit]
    exact sortTrees_perm _
  rw [oneIteration]
  simp only [hsort]
  norm_num [HTree.value_]

/-- With no used symbol, one iteration leaves the depth array unchanged. -/
theorem oneIteration_spec_zero (hist : List Nat) (cm : Nat) (depths : List Nat)
    (h0 : usedSymbols hist = []) :
    oneIteration hist cm depths = depths := by
  have hinit : initialLeaves hist cm = [] := by
    rw [initialLeaves, h0, List.map_nil]
  rw [oneIteration]
  simp [hinit, sortTrees]

theorem length_oneIteration (hist : List Nat) (cm : Nat) (depths : List Nat) :
    (oneIteration hist cm depths).length = depths.length := by
  rcases Nat.lt_or_ge (usedSymbols hist).length 2 with h | h
  · interval_cases hl : (usedSymbols hist).length
    · rw [oneIteration_spec_zero hist cm depths (List.length_eq_zero.mp hl)]
    · obtain ⟨j, hj⟩ := List.length_eq_one.mp hl
      rw [oneIteration_spec_one hist cm depths j hj, List.length_set]
  · obtain ⟨t, ht, -, -⟩ := oneIteration_spec_two hist cm depths h
    rw [ht, length_writeAll]

theorem generateLoop_shape (hist : List Nat) (limit : Nat) :
    ∀ (fuel cm : Nat) (depths d : List Nat),
      generateLoop hist limit fuel cm depths = some d →
        ∃ (cm' : Nat) (dp : List Nat), dp.length = depths.length ∧
          d = oneIteration hist cm' dp := by
  intro fuel
  induction fuel with
  | zero =>
    intro cm depths d h
    simp [generateLoop] at h
  | succ n ih =>
    intro cm depths d h
    rw [generateLoop] at h
    by_cases hc : maxDepthOf (oneIteration hist cm depths) ≤ limit
    · rw [if_pos hc] at h
      injection h with h
      exact ⟨cm, depths, rfl, h.symm⟩
    · rw [if_neg hc] at h
      obtain ⟨cm', dp, hdp, hd⟩ := ih _ _ d h
      exact ⟨cm', dp, by rw [hdp, length_oneIteration], hd⟩

/-- Claim C3: on success, the code lengths of `GenerateOptimalTree`
satisfy the Kraft equality `sum over used symbols of 2^-length = 1`
whenever more than one symbol is used, and the Kraft inequality
`sum <= 1` for every input. -/
theorem c3_kraft (hist : List Nat) (tree_depth_limit : Nat)
    (depths0 : List Nat) (fuel : Nat) (d : List Nat)
    (hlen : depths0.length = hist.length)
    (hsucc : generateOptimalTree hist tree_depth_limit depths0 fuel = some d) :
    (2 ≤ (usedSymbols hist).length → kraftSum hist d = 1) ∧
      kraftSum hist d ≤ 1 := by
  obtain ⟨cm, dp, hdp, hd⟩ :=
    generateLoop_shape hist tree_depth_limit fuel 1 depths0 d hsucc
  have hdph : dp.length = hist.length := by rw [hdp, hlen]
  rcases Nat.lt_or_ge (usedSymbols hist).length 2 with hcase | hcase
  · refine ⟨fun hcon => absurd hcon (by omega), ?_⟩
    rcases Nat.lt_or_ge (usedSymbols hist).length 1 with h0 | h1
    · have hz : usedSymbols hist = [] := List.length_eq_zero.mp (by omega)
      rw [kraftSum, hz]
      simp
    · have hone : (usedSymbols hist).length = 1 := by omega
      obtain ⟨j, hj⟩ := List.length_eq_one.mp hone
      have hjlt : j < dp.length := by
        rw [hdph]
        exact ((mem_usedSymbols hist j).mp
          (by rw [hj]; exact List.mem_singleton_self j)).1
      rw [hd, oneIteration_spec_one hist cm dp j hj, kraftSum, hj]
      simp only [List.map_cons, List.map_nil, List.sum_cons, List.sum_nil]
      rw [getD_set_self dp j 1 hjlt]
      norm_num
  · obtain ⟨t, ht, hperm, -⟩ := oneIteration_spec_two hist cm dp hcase
    have hd' : d = writeAll (t.leafDepths 0) dp := by rw [hd, ht]
    have hkeys : (t.leafDepths 0).map Prod.fst = t.leaves := leafDepths_map_fst t 0
    have hnd : ((t.leafDepths 0).map Prod.fst).Nodup := by
      rw [hkeys]
      exact (hperm.nodup_iff).mpr (usedSymbols_nodup hist)
    have husedkeys : (usedSymbols hist).Perm ((t.leafDepths 0).map Prod.fst) := by
      rw [hkeys]
      exact hperm.symm
    have hpoint : ∀ p ∈ t.leafDepths 0,
        (1 / 2 ^ d.getD p.1 0 : ℚ) = 1 / 2 ^ p.2 := by
      intro p hp
      have hmem : p.1 ∈ usedSymbols hist := by
        refine hperm.mem_iff.mp ?_
        rw [← hkeys]
        exact List.mem_map_of_mem Prod.fst hp
      have hlt : p.1 < dp.length := by
        rw [hdph]
        exact ((mem_usedSymbols hist p.1).mp hmem).1
      rw [hd', getD_writeAll_mem (t.leafDepths 0) dp p.1 p.2 hnd
        (by simpa using hp) hlt]
    have hks : kraftSum hist d =
        ((t.leafDepths 0).map (fun p => (1 / 2 ^ p.2 : ℚ))).sum := by
      rw [kraftSum]
      rw [List.Perm.sum_eq (List.Perm.map _ husedkeys)]
      rw [List.map_map]
      exact congrArg List.sum (List.map_congr_left (fun p hp => hpoint p hp))
    rw [hks, kraft_leafDepths t 0]
    norm_num

theorem c3_kraft_witness :
    (([0, 0, 0, 0] : List Nat).length = ([1, 1, 1, 1] : List Nat).length ∧
      generateOptimalTree [1, 1, 1, 1] 3 [0, 0, 0, 0] 5 = some [2, 2, 2, 2]) ∧
      (kraftSum [1, 1, 1, 1] [2, 2, 2, 2] = 1 ∧
        kraftSum [1, 1, 1, 1] [2, 2, 2, 2] ≤ 1) := by
  have h := c3_kraft [1, 1, 1, 1] 3 [0, 0, 0, 0] 5 [2, 2, 2, 2] rfl rfl
  exact ⟨⟨rfl, rfl⟩, h.1 (by decide), h.2⟩

/-! ## Pass 3 of `OptimizeHuffmanForRle` never zeroes a used position
(claim C5) -/

theorem length_writeStride (arr : List Nat) (i stride c : Nat) :
    (writeStride arr i stride c).length = arr.length := by
  induction stride generalizing arr with
  | zero => rfl
  | succ n ih =>
    rw [writeStride, List.range_succ, List.foldl_append, List.foldl_cons,
      List.foldl_nil]
    rw [show List.foldl (fun a k => a.set (i - k - 1) c) arr (List.range n) =
      writeStride arr i n c from rfl]
    rw [List.length_set, ih]

theorem getD_writeStride_out (arr : List Nat) (i stride c : Nat)
    (hsi : stride ≤ i) (j : Nat) (hj : j < i - stride ∨ i ≤ j) :
    (writeStride arr i stride c).getD j 0 = arr.getD j 0 := by
  induction stride generalizing arr with
  | zero => rfl
  | succ n ih =>
    rw [writeStride, List.range_succ, List.foldl_append, List.foldl_cons,
      List.foldl_nil]
    rw [show List.foldl (fun a k => a.set (i - k - 1) c) arr (List.range n) =
      writeStride arr i n c from rfl]
    rw [getD_set_ne _ _ _ _ (by omega)]
    exact ih arr (by omega) (by omega)

theorem getD_writeStride_in (arr : List Nat) (i stride c : Nat)
    (hsi : stride ≤ i) (j : Nat) (hlo : i - stride ≤ j) (hhi : j < i)
    (hlt : j < arr.length) :
    (writeStride arr i stride c).getD j 0 = c := by
  induction stride generalizing arr with
  | zero => omega
  | succ n ih =>
    rw [writeStride, List.range_succ, List.foldl_append, List.foldl_cons,
      List.foldl_nil]
    rw [show List.foldl (fun a k => a.set (i - k - 1) c) arr (List.range n) =
      writeStride arr i n c from rfl]
    by_cases hj : j = i - n - 1
    · subst hj
      exact getD_set_self _ _ _ (by rw [length_writeStride]; exact hlt)
    · rw [getD_set_ne _ _ _ _ (by omega)]
      exact ih arr (by omega) (by omega) hlt


theorem pass3step_arr_closed (cv : Nat → Nat → Nat) (good : List Bool)
    (L stride sum limit : Nat) (arr : List Nat) (i : Nat)
    (hc : i = L ∨ good.getD i false = true ∨
      (i ≠ 0 ∧ good.getD (i - 1) false = true) ∨
      ¬ valuesShouldBeCollapsedToStrideAverage (arr.getD i 0) limit) :
    (pass3step cv good L (stride, sum, limit, arr) i).2.2.2 =
      if stride ≥ 4 ∨ (stride ≥ 3 ∧ sum = 0) then
        writeStride arr i stride (cv sum stride)
      else arr := by
  simp only [pass3step]
  rw [if_pos hc]
  by_cases hiL : i = L
  · simp [hiL]
  · simp [hiL]

theorem pass3step_stride_closed (cv : Nat → Nat → Nat) (good : List Bool)
    (L stride sum limit : Nat) (arr : List Nat) (i : Nat)
    (hc : i = L ∨ good.getD i false = true ∨
      (i ≠ 0 ∧ good.getD (i - 1) false = true) ∨
      ¬ valuesShouldBeCollapsedToStrideAverage (arr.getD i 0) limit) :
    (pass3step cv good L (stride, sum, limit, arr) i).1 = 1 := by
  simp only [pass3step]
  rw [if_pos hc]
  by_cases hiL : i = L
  · simp [hiL]
  · simp [hiL]

theorem pass3step_sum_closed_ne (cv : Nat → Nat → Nat) (good : List Bool)
    (L stride sum limit : Nat) (arr : List Nat) (i : Nat)
    (hc : i = L ∨ good.getD i false = true ∨
      (i ≠ 0 ∧ good.getD (i - 1) false = true) ∨
      ¬ valuesShouldBeCollapsedToStrideAverage (arr.getD i 0) limit)
    (hiL : i ≠ L) :
    (pass3step cv good L (stride, sum, limit, arr) i).2.1 =
      (if stride ≥ 4 ∨ (stride ≥ 3 ∧ sum = 0) then
        writeStride arr i stride (cv sum stride)
      else arr).getD i 0 := by
  simp only [pass3step]
  rw [if_pos hc]
  simp [hiL]

theorem pass3step_sum_closed_eq (cv : Nat → Nat → Nat) (good : List Bool)
    (L stride sum limit : Nat) (arr : List Nat) (i : Nat)
    (hc : i = L ∨ good.getD i false = true ∨
      (i ≠ 0 ∧ good.getD (i - 1) false = true) ∨
      ¬ valuesShouldBeCollapsedToStrideAverage (arr.getD i 0) limit)
    (hiL : i = L) :
    (pass3step cv good L (stride, sum, limit, arr) i).2.1 = 0 := by
  simp only [pass3step]
  rw [if_pos hc]
  simp [hiL]

theorem pass3step_arr_open (cv : Nat → Nat → Nat) (good : List Bool)
    (L stride sum limit : Nat) (arr : List Nat) (i : Nat)
    (hc : ¬ (i = L ∨ good.getD i false = true ∨
      (i ≠ 0 ∧ good.getD (i - 1) false = true) ∨
      ¬ valuesShouldBeCollapsedToStrideAverage (arr.getD i 0) limit)) :
    (pass3step cv good L (stride, sum, limit, arr) i).2.2.2 = arr := by
  have hiL : i ≠ L := fun h => hc (Or.inl h)
  simp only [pass3step]
  rw [if_neg hc]
  simp [hiL]

theorem pass3step_stride_open (cv : Nat → Nat → Nat) (good : List Bool)
    (L stride sum limit : Nat) (arr : List Nat) (i : Nat)
    (hc : ¬ (i = L ∨ good.getD i false = true ∨
      (i ≠ 0 ∧ good.getD (i - 1) false = true) ∨
      ¬ valuesShouldBeCollapsedToStrideAverage (arr.getD i 0) limit)) :
    (pass3step cv good L (stride, sum, limit, arr) i).1 = stride + 1 := by
  have hiL : i ≠ L := fun h => hc (Or.inl h)
  simp only [pass3step]
  rw [if_neg hc]
  simp [hiL]

theorem pass3step_sum_open (cv : Nat → Nat → Nat) (good : List Bool)
    (L stride sum limit : Nat) (arr : List Nat) (i : Nat)
    (hc : ¬ (i = L ∨ good.getD i false = true ∨
      (i ≠ 0 ∧ good.getD (i - 1) false = true) ∨
      ¬ valuesShouldBeCollapsedToStrideAverage (arr.getD i 0) limit)) :
    (pass3step cv good L (stride, sum, limit, arr) i).2.1 =
      sum + arr.getD i 0 := by
  have hiL : i ≠ L := fun h => hc (Or.inl h)
  simp only [pass3step]
  rw [if_neg hc]
  simp [hiL]

theorem lt_length_of_getD_ne (l : List Nat) (j : Nat) (h : l.getD j 0 ≠ 0) :
    j < l.length := by
  by_contra hn
  exact h (List.getD_eq_default _ _ (Nat.le_of_not_lt hn))

/-- Pass-3 invariant: positions whose original count is non-zero are never
zeroed.  State invariants carried through the loop: the current stride
fits below `i`; the array agrees with the original from the stride's start
on; a zero running sum means the whole current stride is originally zero;
and all originally non-zero positions are still non-zero. -/
theorem pass3go_preserves_nonzero (cv : Nat → Nat → Nat)
    (hcv : ∀ s t, s ≠ 0 → cv s t ≠ 0) (good : List Bool) (orig : List Nat) :
    ∀ (k i : Nat) (st : Nat × Nat × Nat × List Nat),
      st.1 ≤ i →
      st.2.2.2.length = orig.length →
      (∀ j, i - st.1 ≤ j → st.2.2.2.getD j 0 = orig.getD j 0) →
      (st.2.1 = 0 → ∀ j, i - st.1 ≤ j → j < i → orig.getD j 0 = 0) →
      (∀ j, orig.getD j 0 ≠ 0 → st.2.2.2.getD j 0 ≠ 0) →
      ∀ j, orig.getD j 0 ≠ 0 →
        (pass3go cv good orig.length i k st).getD j 0 ≠ 0 := by
  intro k
  induction k with
  | zero =>
    intro i st h1 h2 h3 h4 h5 j hj
    exact h5 j hj
  | succ n ih =>
    intro i st h1 h2 h3 h4 h5 j hj
    obtain ⟨stride, sum, limit, arr⟩ := st
    simp only at h1 h2 h3 h4 h5
    rw [pass3go]
    by_cases hc : (i = orig.length ∨ good.getD i false = true ∨
        (i ≠ 0 ∧ good.getD (i - 1) false = true) ∨
        ¬ valuesShouldBeCollapsedToStrideAverage (arr.getD i 0) limit)
    · -- the stride closes at i (possibly collapsing)
      have ha := pass3step_arr_closed cv good orig.length stride sum limit arr i hc
      have hs := pass3step_stride_closed cv good orig.length stride sum limit arr i hc
      have hF1 : (pass3step cv good orig.length (stride, sum, limit, arr) i).2.2.2.length =
          orig.length := by
        rw [ha]
        by_cases hg : stride ≥ 4 ∨ (stride ≥ 3 ∧ sum = 0)
        · rw [if_pos hg, length_writeStride]; exact h2
        · rw [if_neg hg]; exact h2
      have hF2 : ∀ j2, i ≤ j2 →
          (pass3step cv good orig.length (stride, sum, limit, arr) i).2.2.2.getD j2 0 =
            orig.getD j2 0 := by
        intro j2 hij2
        rw [ha]
        by_cases hg : stride ≥ 4 ∨ (stride ≥ 3 ∧ sum = 0)
        · rw [if_pos hg, getD_writeStride_out arr i stride _ h1 j2 (Or.inr hij2)]
          exact h3 j2 (by omega)
        · rw [if_neg hg]
          exact h3 j2 (by omega)
      have hF3 : ∀ j2, orig.getD j2 0 ≠ 0 →
          (pass3step cv good orig.length (stride, sum, limit, arr) i).2.2.2.getD j2 0 ≠ 0 := by
        intro j2 hj2
        rw [ha]
        by_cases hg : stride ≥ 4 ∨ (stride ≥ 3 ∧ sum = 0)
        · rw [if_pos hg]
          by_cases hsum : sum = 0
          · have hout : j2 < i - stride ∨ i ≤ j2 := by
              by_contra hcon
              exact hj2 (h4 hsum j2 (by omega) (by omega))
            rw [getD_writeStride_out arr i stride _ h1 j2 hout]
            exact h5 j2 hj2
          · by_cases hwin : i - stride ≤ j2 ∧ j2 < i
            · have hlt : j2 < arr.length := by
                rw [h2]
                exact lt_length_of_getD_ne orig j2 hj2
              rw [getD_writeStride_in arr i stride _ h1 j2 hwin.1 hwin.2 hlt]
              exact hcv sum stride hsum
            · rw [getD_writeStride_out arr i stride _ h1 j2 (by omega)]
              exact h5 j2 hj2
        · rw [if_neg hg]
          exact h5 j2 hj2
      refine ih (i + 1) (pass3step cv good orig.length (stride, sum, limit, arr) i)
        (by rw [hs]; omega) hF1 (fun j2 hij2 => hF2 j2 (by omega)) ?_ hF3 j hj
      -- zero running sum over the fresh one-element stride
      intro hsz j2 hlo hhi
      rw [hs] at hlo
      have hj2i : j2 = i := by omega
      by_cases hiL : i = orig.length
      · rw [hj2i, hiL]
        exact List.getD_eq_default _ _ (le_refl _)
      · have hsum' := pass3step_sum_closed_ne cv good orig.length stride sum limit arr i hc hiL
        rw [hsum'] at hsz
        rw [hj2i, ← hF2 i (le_refl i), ha]
        exact hsz
    · -- the stride extends over i
      have ha := pass3step_arr_open cv good orig.length stride sum limit arr i hc
      have hs := pass3step_stride_open cv good orig.length stride sum limit arr i hc
      have hsum := pass3step_sum_open cv good orig.length stride sum limit arr i hc
      refine ih (i + 1) (pass3step cv good orig.length (stride, sum, limit, arr) i)
        (by rw [hs]; omega) (by rw [ha]; exact h2)
        (fun j2 hij2 => by rw [ha]; exact h3 j2 (by rw [hs] at hij2; omega)) ?_
        (fun j2 hj2 => by rw [ha]; exact h5 j2 hj2) j hj
      intro hsz j2 hlo hhi
      rw [hsum] at hsz
      rw [hs] at hlo
      have hz1 : sum = 0 := by omega
      have hz2 : arr.getD i 0 = 0 := by omega
      rcases Nat.lt_or_ge j2 i with hj2i | hj2i
      · exact h4 hz1 j2 (by omega) hj2i
      · have hj2i' : j2 = i := by omega
        subst hj2i'
        rw [← h3 j2 (by omega)]
        exact hz2

/-- On success, every symbol with a non-zero count in the histogram that
`GenerateOptimalTree` sees receives a positive code length. -/
theorem generateOptimalTree_pos (hist : List Nat) (tree_depth_limit : Nat)
    (depths0 : List Nat) (fuel : Nat) (d : List Nat)
    (hlen : depths0.length = hist.length)
    (hsucc : generateOptimalTree hist tree_depth_limit depths0 fuel = some d)
    (i : Nat) (hi : hist.getD i 0 ≠ 0) : 0 < d.getD i 0 := by
  obtain ⟨cm, dp, hdp, hd⟩ :=
    generateLoop_shape hist tree_depth_limit fuel 1 depths0 d hsucc
  have hdph : dp.length = hist.length := by rw [hdp, hlen]
  have himem : i ∈ usedSymbols hist :=
    (mem_usedSymbols hist i).mpr ⟨lt_length_of_getD_ne hist i hi, hi⟩
  have hilt : i < dp.length := by
    rw [hdph]
    exact lt_length_of_getD_ne hist i hi
  rcases Nat.lt_or_ge (usedSymbols hist).length 2 with hcase | hcase
  · rcases Nat.lt_or_ge (usedSymbols hist).length 1 with h0 | h1
    · rw [List.length_eq_zero.mp
        (show (usedSymbols hist).length = 0 by omega)] at himem
      simp at himem
    · obtain ⟨j, hj⟩ := List.length_eq_one.mp
        (show (usedSymbols hist).length = 1 by omega)
      have hij : i = j := by
        rw [hj] at himem
        exact List.mem_singleton.mp himem
      subst hij
      rw [hd, oneIteration_spec_one hist cm dp i hj, getD_set_self dp i 1 hilt]
      omega
  · obtain ⟨t, ht, hperm, hdep⟩ := oneIteration_spec_two hist cm dp hcase
    have hkeys : (t.leafDepths 0).map Prod.fst = t.leaves := leafDepths_map_fst t 0
    have hnd : ((t.leafDepths 0).map Prod.fst).Nodup := by
      rw [hkeys]
      exact (hperm.nodup_iff).mpr (usedSymbols_nodup hist)
    have hik : i ∈ (t.leafDepths 0).map Prod.fst := by
      rw [hkeys]
      exact hperm.mem_iff.mpr himem
    obtain ⟨p, hpmem, hpi⟩ := List.mem_map.mp hik
    rw [hd, ht, ← hpi]
    rw [getD_writeAll_mem (t.leafDepths 0) dp p.1 p.2 hnd (by simpa using hpmem)
      (by rw [hpi]; exact hilt)]
    exact hdep p hpmem

theorem collapseCount_ne_zero (s t : Nat) (hs : s ≠ 0) :
    collapseCount s t ≠ 0 := by
  simp only [collapseCount, hs, if_neg, reduceIte]
  split <;> omega

theorem pass3step_length (cv : Nat → Nat → Nat) (good : List Bool) (L : Nat)
    (st : Nat × Nat × Nat × List Nat) (i : Nat) :
    (pass3step cv good L st i).2.2.2.length = st.2.2.2.length := by
  obtain ⟨stride, sum, limit, arr⟩ := st
  by_cases hc : (i = L ∨ good.getD i false = true ∨
      (i ≠ 0 ∧ good.getD (i - 1) false = true) ∨
      ¬ valuesShouldBeCollapsedToStrideAverage (arr.getD i 0) limit)
  · rw [pass3step_arr_closed cv good L stride sum limit arr i hc]
    by_cases hg : stride ≥ 4 ∨ (stride ≥ 3 ∧ sum = 0)
    · rw [if_pos hg, length_writeStride]
    · rw [if_neg hg]
  · rw [pass3step_arr_open cv good L stride sum limit arr i hc]

theorem pass3go_length (cv : Nat → Nat → Nat) (good : List Bool) (L : Nat) :
    ∀ (k i : Nat) (st : Nat × Nat × Nat × List Nat),
      (pass3go cv good L i k st).length = st.2.2.2.length := by
  intro k
  induction k with
  | zero => intro i st; rfl
  | succ n ih =>
    intro i st
    rw [pass3go, ih, pass3step_length]

theorem length_pass3 (cv : Nat → Nat → Nat) (good : List Bool)
    (arr : List Nat) : (pass3 cv good arr).length = arr.length := by
  rw [pass3, pass3go_length]

theorem getD_zero_of_lt_takeWhile (l : List Nat) (m : Nat)
    (h : m < (l.takeWhile (· == (0 : Nat))).length) : l.getD m 0 = 0 := by
  induction l generalizing m with
  | nil => simp at h
  | cons x xs ih =>
    rw [List.takeWhile_cons] at h
    by_cases hx : (x == (0 : Nat)) = true
    · rw [if_pos hx] at h
      simp only [List.length_cons] at h
      cases m with
      | zero =>
        rw [List.getD_cons_zero]
        simpa using hx
      | succ m' =>
        rw [List.getD_cons_succ]
        exact ih m' (by omega)
    · rw [if_neg hx] at h
      simp at h

theorem getD_reverse (l : List Nat) (j : Nat) (hj : j < l.length) :
    l.getD j 0 = l.reverse.getD (l.length - 1 - j) 0 := by
  rw [List.getD_eq_getElem _ _ hj,
    List.getD_eq_getElem _ _ (by rw [List.length_reverse]; omega)]
  rw [List.getElem_reverse]
  congr 1
  omega

theorem trimmedLength_le (counts : List Nat) :
    trimmedLength counts ≤ counts.length :=
  Nat.sub_le _ _

theorem getD_zero_of_trimmed (counts : List Nat) (j : Nat)
    (hj : trimmedLength counts ≤ j) : counts.getD j 0 = 0 := by
  by_cases hlen : j < counts.length
  · rw [getD_reverse counts j hlen]
    apply getD_zero_of_lt_takeWhile
    rw [trimmedLength] at hj
    omega
  · exact List.getD_eq_default _ _ (Nat.le_of_not_lt hlen)

theorem length_optimizeHuffmanForRle (counts : List Nat) :
    (optimizeHuffmanForRle counts).length = counts.length := by
  rw [optimizeHuffmanForRle]
  simp only [optimizeHuffmanForRleWith]
  by_cases hL : trimmedLength counts = 0
  · rw [if_pos hL]
  · rw [if_neg hL]
    simp only [List.length_append, length_pass3, List.length_take,
      List.length_drop]
    have := trimmedLength_le counts
    omega

theorem getD_take_eq (l : List Nat) (L j : Nat) (hj : j < L) :
    (l.take L).getD j 0 = l.getD j 0 := by
  by_cases hlen : j < l.length
  · rw [List.getD_eq_getElem _ _ (by simp; omega), List.getD_eq_getElem _ _ hlen]
    exact List.getElem_take l
  · rw [List.getD_eq_default _ _ (by simp; omega),
      List.getD_eq_default _ _ (by omega)]

/-- `OptimizeHuffmanForRle` never turns a used symbol into an unused one:
every position with a non-zero count keeps a non-zero count. -/
theorem optimizeHuffmanForRle_nonzero (counts : List Nat) (j : Nat)
    (hj : counts.getD j 0 ≠ 0) :
    (optimizeHuffmanForRle counts).getD j 0 ≠ 0 := by
  have hjL : j < trimmedLength counts := by
    by_contra hn
    exact hj (getD_zero_of_trimmed counts j (Nat.le_of_not_lt hn))
  rw [optimizeHuffmanForRle]
  simp only [optimizeHuffmanForRleWith]
  rw [if_neg (by omega)]
  rw [List.getD_append _ _ _ _
    (by rw [length_pass3, List.length_take]
        have := trimmedLength_le counts
        omega)]
  have hfront : (counts.take (trimmedLength counts)).getD j 0 ≠ 0 := by
    rw [getD_take_eq counts _ j hjL]
    exact hj
  rw [pass3]
  exact pass3go_preserves_nonzero collapseCount collapseCount_ne_zero _ _
    ((counts.take (trimmedLength counts)).length + 1) 0
    (0, 0, (counts.take (trimmedLength counts)).getD 0 0,
      counts.take (trimmedLength counts))
    (by omega) rfl (fun j2 _ => rfl)
    (fun _ j2 _ h => absurd h (by omega)) (fun j2 h => h) j hfront

/-- Claim C5 as stated is false: histogram smoothing can give a zero-count
symbol a positive count.  For `histogram = [3,0,3,3]` the smoother rewrites
the counts to `[2,2,2,2]`, so symbol 1 (input count 0) ends with
`code_lengths[1] = 2 > 0`. -/
theorem c5_counterexample :
    vp8lCreateHuffmanTree [3, 0, 3, 3] 7 [0, 0, 0, 0] 10 =
        some ([2, 2, 2, 2], [0, 2, 1, 3]) ∧
      ¬ (0 < ([2, 2, 2, 2] : List Nat).getD 1 0 ↔
          ([3, 0, 3, 3] : List Nat).getD 1 0 ≠ 0) :=
  ⟨rfl, by decide⟩

/-- Amended claim C5: on success of the full pipeline, every symbol with a
non-zero count in the caller-supplied histogram gets a positive code
length (the converse fails: smoothing may assign positive counts, and
hence positive lengths, to symbols whose input count was zero). -/
theorem c5_used_symbols_get_positive_length (histogram : List Nat)
    (tree_depth_limit : Nat) (depths0 : List Nat) (fuel : Nat)
    (lengths codes : List Nat) (hlen : depths0.length = histogram.length)
    (hsucc : vp8lCreateHuffmanTree histogram tree_depth_limit depths0 fuel =
      some (lengths, codes))
    (i : Nat) (hi : histogram.getD i 0 ≠ 0) : 0 < lengths.getD i 0 := by
  rw [vp8lCreateHuffmanTree] at hsucc
  cases hgen : generateOptimalTree (optimizeHuffmanForRle histogram)
      tree_depth_limit depths0 fuel with
  | none => rw [hgen] at hsucc; simp at hsucc
  | some dd =>
    rw [hgen] at hsucc
    simp only [Option.map_some', Option.some.injEq, Prod.mk.injEq] at hsucc
    obtain ⟨h1, h2⟩ := hsucc
    rw [← h1]
    exact generateOptimalTree_pos (optimizeHuffmanForRle histogram)
      tree_depth_limit depths0 fuel dd
      (by rw [length_optimizeHuffmanForRle]; exact hlen) hgen i
      (optimizeHuffmanForRle_nonzero histogram i hi)

theorem c5_used_symbols_get_positive_length_witness :
    (([0, 0, 0, 0] : List Nat).length = ([3, 0, 3, 3] : List Nat).length ∧
      vp8lCreateHuffmanTree [3, 0, 3, 3] 7 [0, 0, 0, 0] 10 =
        some ([2, 2, 2, 2], [0, 2, 1, 3]) ∧
      ([3, 0, 3, 3] : List Nat).getD 0 0 ≠ 0) ∧
      0 < ([2, 2, 2, 2] : List Nat).getD 0 0 :=
  ⟨⟨rfl, rfl, by decide⟩,
    c5_used_symbols_get_positive_length [3, 0, 3, 3] 7 [0, 0, 0, 0] 10
      [2, 2, 2, 2] [0, 2, 1, 3] rfl rfl 0 (by decide)⟩

/-! ## `ReverseBits` computes the reversal of the low `num_bits` bits
(claim C4) -/

theorem testBit_bitRev (n : Nat) :
    ∀ v p : Nat, (bitRev n v).testBit p =
      (decide (p < n) && v.testBit (n - 1 - p)) := by
  induction n with
  | zero =>
    intro v p
    simp [bitRev]
  | succ m ih =>
    intro v p
    rw [bitRev, Nat.testBit_lor, Nat.testBit_shiftLeft, ih, Nat.testBit_land,
      Nat.testBit_shiftRight]
    rw [show (1 : Nat) = 2 ^ 0 from rfl, Nat.testBit_two_pow]
    by_cases hpm : p = m
    · have h1 : ¬ p < m := by omega
      have h2 : p < m + 1 := by omega
      have h3 : p - m = 0 := by omega
      have h4 : m + 1 - 1 - p = 0 := by omega
      have h5 : m ≤ p := by omega
      simp [h1, h2, h3, h4, h5]
    · by_cases hpm2 : p < m
      · have h1 : ¬ m ≤ p := by omega
        have h2 : p < m + 1 := by omega
        have e : 1 + (m - 1 - p) = m - p := by omega
        have e2 : m + 1 - 1 - p = m - p := by omega
        simp [h1, h2, hpm2, e, e2]
      · have h1 : m ≤ p := by omega
        have h2 : ¬ p < m + 1 := by omega
        have h3 : ¬ (0 = p - m) := by omega
        simp [h1, h2, hpm2, h3]

theorem testBit_kRev (w : Nat) (hw : w < 16) (t : Nat) :
    (kReversedBits.getD w 0).testBit t =
      (decide (t < 4) && w.testBit (3 - t)) := by
  by_cases ht : t < 4
  · have hall : ∀ w' < 16, ∀ t' < 4,
        (kReversedBits.getD w' 0).testBit t' = w'.testBit (3 - t') := by
      decide
    rw [hall w hw t ht]
    simp [ht]
  · have h16 : kReversedBits.getD w 0 < 16 := by
      have hall : ∀ w' < 16, kReversedBits.getD w' 0 < 16 := by decide
      exact hall w hw
    have hlt : kReversedBits.getD w 0 < 2 ^ t := by
      calc kReversedBits.getD w 0 < 16 := h16
        _ = 2 ^ 4 := rfl
        _ ≤ 2 ^ t := Nat.pow_le_pow_right (by omega) (by omega)
    rw [Nat.testBit_lt_two_pow hlt]
    simp [ht]

theorem testBit_kRevShift (bits i p : Nat) (hi : i ≤ 12) :
    ((kReversedBits.getD (bits &&& 15) 0) <<< (12 - i)).testBit p =
      (decide (12 - i ≤ p ∧ p ≤ 15 - i) && bits.testBit (15 - i - p)) := by
  rw [Nat.testBit_shiftLeft]
  have hw : bits &&& 15 < 16 := Nat.lt_succ_of_le Nat.and_le_right
  rw [testBit_kRev _ hw, Nat.testBit_land]
  rw [show (15 : Nat) = 2 ^ 4 - 1 from rfl, Nat.testBit_two_pow_sub_one]
  by_cases h1 : 12 - i ≤ p
  · by_cases h2 : p ≤ 15 - i
    · have e1 : p - (12 - i) < 4 := by omega
      have e2 : 3 - (p - (12 - i)) = 15 - i - p := by omega
      have e3 : 15 - i - p < 4 := by omega
      simp [h1, h2, e1, e2, e3]
    · have e1 : ¬ (p - (12 - i) < 4) := by omega
      simp [h1, h2, e1]
  · have e : ¬ (12 - i ≤ p ∧ p ≤ 15 - i) := fun h => h1 h.1
    simp [h1, e]

theorem reverseBitsLoop_testBit (n : Nat) (hn : n ≤ 15) :
    ∀ (fuel i bits ret : Nat), 4 ∣ i → n ≤ i + 4 * fuel →
      ∀ p : Nat,
        (reverseBitsLoop n fuel i bits ret).testBit p =
          (ret.testBit p ||
            (decide (p ≤ 15 - i) &&
              (bits % 2 ^ (4 * ((n - i + 3) / 4))).testBit (15 - i - p))) := by
  intro fuel
  induction fuel with
  | zero =>
    intro i bits ret hdvd hfuel p
    have hm : (n - i + 3) / 4 = 0 := by omega
    rw [reverseBitsLoop, hm]
    simp [Nat.mod_one]
  | succ f ih =>
    intro i bits ret hdvd hfuel p
    rw [reverseBitsLoop]
    by_cases hin : i < n
    · rw [if_pos hin]
      have hi12 : i ≤ 12 := by omega
      have hsh : MAX_ALLOWED_CODE_LENGTH + 1 - (i + 4) = 12 - i := by
        rw [MAX_ALLOWED_CODE_LENGTH]
        omega
      rw [hsh]
      rw [ih (i + 4) (bits >>> 4) _ (Nat.dvd_add hdvd (dvd_refl 4))
        (by omega) p]
      rw [Nat.testBit_lor, testBit_kRevShift bits i p hi12]
      rw [Bool.or_assoc]
      congr 1
      rw [Nat.testBit_mod_two_pow, Nat.testBit_mod_two_pow,
        Nat.testBit_shiftRight]
      by_cases hA : p + i ≤ 15
      · by_cases hB : 12 ≤ p + i
        · have f1 : 12 - i ≤ p ∧ p ≤ 15 - i := by omega
          have f2 : p ≤ 15 - i := by omega
          have f4 : 15 - i - p < 4 * ((n - i + 3) / 4) := by omega
          by_cases hp11 : p ≤ 11 - i
          · have f3 : ¬ (11 - i - p < 4 * ((n - (i + 4) + 3) / 4)) := by omega
            simp [f1, f2, f3, f4]
          · simp [f1, f2, hp11, f4]
        · have f2 : p ≤ 15 - i := by omega
          have f2a : p ≤ 11 - i := by omega
          have f3 : 4 + (11 - i - p) = 15 - i - p := by omega
          have f4 : (11 - i - p < 4 * ((n - (i + 4) + 3) / 4)) ↔
              (15 - i - p < 4 * ((n - i + 3) / 4)) := by omega
          simp [hB, f2, f2a, f3, f4]
      · have f2 : ¬ (p ≤ 15 - i) := by omega
        have f3 : ¬ (p ≤ 11 - i) := by omega
        simp [f2, f3]
    · rw [if_neg hin]
      have hm : (n - i + 3) / 4 = 0 := by omega
      rw [hm]
      simp [Nat.mod_one]

/-- `ReverseBits n v` is the bit-reversal of the low `n` bits of `v`,
for every `n ≤ 15`. -/
theorem reverseBits_eq_bitRev (n : Nat) (hn : n ≤ 15) (v : Nat) :
    reverseBits n v = bitRev n (v % 2 ^ n) := by
  apply Nat.eq_of_testBit_eq
  intro p
  rw [reverseBits, Nat.testBit_shiftRight]
  have hsh : MAX_ALLOWED_CODE_LENGTH + 1 - n = 16 - n := by
    rw [MAX_ALLOWED_CODE_LENGTH]
  rw [hsh]
  rw [reverseBitsLoop_testBit n hn n 0 v 0 (Dvd.intro 0 rfl) (by omega)]
  rw [testBit_bitRev]
  rw [Nat.testBit_mod_two_pow, Nat.testBit_mod_two_pow]
  simp only [Nat.zero_testBit, Bool.false_or, Nat.sub_zero]
  by_cases hp : p < n
  · have e1 : 16 - n + p ≤ 15 := by omega
    have e2 : 15 - (16 - n + p) = n - 1 - p := by omega
    have e3 : n - 1 - p < 4 * ((n + 3) / 4) := by omega
    have e4 : n - 1 - p < n := by omega
    simp [e1, e2, e3, e4, hp]
  · have e1 : ¬ (16 - n + p ≤ 15) := by omega
    simp [e1, hp]

theorem length_foldl_bump (lens : List Nat) :
    ∀ dc : List Nat,
      (lens.foldl (fun dc l => dc.set l (dc.getD l 0 + 1)) dc).length =
        dc.length := by
  induction lens with
  | nil => intro dc; rfl
  | cons x xs ih =>
    intro dc
    rw [List.foldl_cons, ih, List.length_set]

theorem getD_foldl_bump (lens : List Nat) :
    ∀ (dc : List Nat) (ℓ : Nat), (∀ x ∈ lens, x < dc.length) →
      (lens.foldl (fun dc l => dc.set l (dc.getD l 0 + 1)) dc).getD ℓ 0 =
        dc.getD ℓ 0 + lens.count ℓ := by
  induction lens with
  | nil => intro dc ℓ h; simp
  | cons x xs ih =>
    intro dc ℓ h
    rw [List.foldl_cons, ih _ ℓ
      (fun y hy => by rw [List.length_set]; exact h y (List.mem_cons_of_mem _ hy))]
    rw [List.count_cons]
    by_cases hx : ℓ = x
    · subst hx
      rw [getD_set_self dc ℓ _ (h ℓ (List.mem_cons_self _ _))]
      simp
      omega
    · rw [getD_set_ne dc x ℓ _ (fun he => hx he.symm)]
      have : (x == ℓ) = false := by simpa using fun he => hx he.symm
      simp [this]

theorem getD_replicate_zero (n ℓ : Nat) :
    (List.replicate n (0 : Nat)).getD ℓ 0 = 0 := by
  by_cases hℓ : ℓ < n
  · rw [List.getD_eq_getElem _ _ (by simpa using hℓ)]
    rw [List.getElem_replicate]
  · exact List.getD_eq_default _ _ (by simpa using Nat.le_of_not_lt hℓ)

theorem getD_depth_count (lens : List Nat) (h15 : ∀ x ∈ lens, x ≤ 15)
    (ℓ : Nat) :
    (depth_count lens).getD ℓ 0 = if ℓ = 0 then 0 else lens.count ℓ := by
  rw [depth_count]
  by_cases h0 : ℓ = 0
  · subst h0
    rw [getD_set_self _ _ _ (by
      rw [length_foldl_bump]
      simp [MAX_ALLOWED_CODE_LENGTH])]
    simp
  · rw [getD_set_ne _ _ _ _ (fun he => h0 he.symm)]
    rw [getD_foldl_bump lens _ ℓ (fun x hx => by
      rw [List.length_replicate, MAX_ALLOWED_CODE_LENGTH]
      have := h15 x hx
      omega)]
    rw [getD_replicate_zero]
    simp [h0]

theorem nextCodeVal_le_succ (dc : List Nat) (a : Nat) :
    nextCodeVal dc a ≤ nextCodeVal dc (a + 1) := by
  rw [nextCodeVal]
  omega

theorem nextCodeVal_mono (dc : List Nat) (a b : Nat) (h : a ≤ b) :
    nextCodeVal dc a ≤ nextCodeVal dc b := by
  induction b with
  | zero =>
    have : a = 0 := by omega
    rw [this]
  | succ m ih =>
    by_cases hab : a = m + 1
    · rw [hab]
    · exact le_trans (ih (by omega)) (nextCodeVal_le_succ dc m)

theorem length_preCodesGo (lens : List Nat) :
    ∀ nc : List Nat, (preCodesGo lens nc).length = lens.length := by
  induction lens with
  | nil => intro nc; rfl
  | cons l ls ih =>
    intro nc
    rw [preCodesGo, List.length_cons, ih, List.length_cons]

theorem getD_preCodesGo (lens : List Nat) :
    ∀ (nc : List Nat) (i : Nat), i < lens.length →
      (∀ x ∈ lens, x < nc.length) →
      (preCodesGo lens nc).getD i 0 =
        nc.getD (lens.getD i 0) 0 + (lens.take i).count (lens.getD i 0) := by
  induction lens with
  | nil => intro nc i hi; simp at hi
  | cons l ls ih =>
    intro nc i hi h
    rw [preCodesGo]
    cases i with
    | zero => simp
    | succ k =>
      rw [List.getD_cons_succ, List.getD_cons_succ]
      rw [ih _ k (by simpa using hi) (fun y hy => by
        rw [List.length_set]; exact h y (List.mem_cons_of_mem _ hy))]
      rw [List.take_succ_cons, List.count_cons]
      by_cases hx : ls.getD k 0 = l
      · rw [hx, getD_set_self nc l _ (h l (List.mem_cons_self _ _))]
        simp
        omega
      · have hne : l ≠ ls.getD k 0 := fun he => hx he.symm
        rw [getD_set_ne nc l _ _ hne]
        have hb : (l == ls.getD k 0) = false := by simpa using hne
        simp [hb]
        intro he
        exact hne (by simpa using he)

theorem getD_next_code (lens : List Nat) (ℓ : Nat) (hℓ : ℓ ≤ 15) :
    (next_code lens).getD ℓ 0 = nextCodeVal (depth_count lens) ℓ := by
  rw [next_code]
  rw [List.getD_eq_getElem _ _ (by
    rw [List.length_map, List.length_range, MAX_ALLOWED_CODE_LENGTH]
    omega)]
  rw [List.getElem_map, List.getElem_range]

theorem preCodes_getD (lens : List Nat) (h15 : ∀ x ∈ lens, x ≤ 15) (i : Nat)
    (hi : i < lens.length) :
    (preCodes lens).getD i 0 =
      nextCodeVal (depth_count lens) (lens.getD i 0) +
        (lens.take i).count (lens.getD i 0) := by
  have hmem : lens.getD i 0 ∈ lens := by
    rw [List.getD_eq_getElem _ _ hi]
    exact List.getElem_mem _
  rw [preCodes, getD_preCodesGo lens (next_code lens) i hi (fun x hx => by
    rw [next_code, List.length_map, List.length_range, MAX_ALLOWED_CODE_LENGTH]
    have := h15 x hx
    omega)]
  rw [getD_next_code lens _ (h15 _ hmem)]

theorem count_take_succ_self (lens : List Nat) (i : Nat) (hi : i < lens.length) :
    (lens.take (i + 1)).count (lens.getD i 0) =
      (lens.take i).count (lens.getD i 0) + 1 := by
  rw [List.take_succ, List.getElem?_eq_getElem hi]
  rw [List.count_append]
  rw [List.getD_eq_getElem _ _ hi]
  simp [List.count_cons]

theorem count_take_mono (lens : List Nat) (a b x : Nat) (h : a ≤ b) :
    (lens.take a).count x ≤ (lens.take b).count x := by
  have : lens.take b = lens.take a ++ (lens.drop a).take (b - a) := by
    rw [← List.take_add]
    congr 1
    omega
  rw [this, List.count_append]
  omega

theorem count_take_lt_count (lens : List Nat) (i : Nat) (hi : i < lens.length) :
    (lens.take i).count (lens.getD i 0) < lens.count (lens.getD i 0) := by
  have h1 := count_take_succ_self lens i hi
  have h2 : (lens.take (i + 1)).count (lens.getD i 0) ≤
      lens.count (lens.getD i 0) := by
    have h3 : (lens.take (i + 1)).count (lens.getD i 0) ≤
        (lens.take lens.length).count (lens.getD i 0) :=
      count_take_mono lens (i + 1) lens.length _ (by omega)
    rwa [List.take_length] at h3
  omega

/-- Claim C4: canonical code assignment.  For valid code lengths (entries
in 0..15): (a) among used symbols of equal length, the pre-reversal code
value strictly increases with the symbol index; (b) used symbols of
shorter length receive numerically smaller pre-reversal codes than
symbols of longer length; (c) every stored code is the bit-reversal of
its pre-reversal value within its own code length. -/
theorem c4_canonical_code_assignment (lens : List Nat)
    (h15 : ∀ x ∈ lens, x ≤ 15) :
    (∀ i j, i < j → j < lens.length → 0 < lens.getD i 0 →
        lens.getD i 0 = lens.getD j 0 →
        (preCodes lens).getD i 0 < (preCodes lens).getD j 0) ∧
    (∀ i j, i < lens.length → j < lens.length → 0 < lens.getD i 0 →
        lens.getD i 0 < lens.getD j 0 →
        (preCodes lens).getD i 0 < (preCodes lens).getD j 0) ∧
    (∀ i, i < lens.length →
        (convertBitDepthsToSymbols lens).getD i 0 =
          bitRev (lens.getD i 0)
            ((preCodes lens).getD i 0 % 2 ^ lens.getD i 0)) := by
  refine ⟨?_, ?_, ?_⟩
  · intro i j hij hj hpos heq
    have hi : i < lens.length := by omega
    rw [preCodes_getD lens h15 i hi, preCodes_getD lens h15 j hj, ← heq]
    have h1 := count_take_succ_self lens i hi
    have h2 := count_take_mono lens (i + 1) j (lens.getD i 0) (by omega)
    omega
  · intro i j hi hj hpos hlt
    rw [preCodes_getD lens h15 i hi, preCodes_getD lens h15 j hj]
    have hc1 := count_take_lt_count lens i hi
    have hdc : (depth_count lens).getD (lens.getD i 0) 0 =
        lens.count (lens.getD i 0) := by
      rw [getD_depth_count lens h15 (lens.getD i 0), if_neg (by omega)]
    have hstep : nextCodeVal (depth_count lens) (lens.getD i 0) +
        lens.count (lens.getD i 0) ≤
        nextCodeVal (depth_count lens) (lens.getD i 0 + 1) := by
      rw [nextCodeVal, hdc]
      omega
    have hmono := nextCodeVal_mono (depth_count lens) (lens.getD i 0 + 1)
      (lens.getD j 0) (by omega)
    omega
  · intro i hi
    have hpc : i < (preCodes lens).length := by
      rw [preCodes, length_preCodesGo]
      exact hi
    have hmem : lens[i] ∈ lens := List.getElem_mem _
    rw [convertBitDepthsToSymbols]
    rw [List.getD_eq_getElem _ _ (by
      rw [List.length_map, List.length_zip, preCodes, length_preCodesGo]
      omega)]
    simp only [List.getElem_map, List.getElem_zip]
    rw [reverseBits_eq_bitRev _ (h15 _ hmem)]
    rw [List.getD_eq_getElem lens _ hi, List.getD_eq_getElem _ _ hpc]

theorem c4_canonical_code_assignment_witness :
    ((∀ x ∈ [1, 2, 2], x ≤ 15) ∧ (0 : Nat) < 1 ∧ (1 : Nat) < 2) ∧
    ((preCodes [1, 2, 2]).getD 1 0 < (preCodes [1, 2, 2]).getD 2 0 ∧
     (preCodes [1, 2, 2]).getD 0 0 < (preCodes [1, 2, 2]).getD 1 0 ∧
     (convertBitDepthsToSymbols [1, 2, 2]).getD 0 0 =
       bitRev (([1, 2, 2] : List Nat).getD 0 0)
         ((preCodes [1, 2, 2]).getD 0 0 % 2 ^ ([1, 2, 2] : List Nat).getD 0 0)) := by
  have h := c4_canonical_code_assignment [1, 2, 2] (by decide)
  exact ⟨⟨by decide, by omega, by omega⟩,
    h.1 1 2 (by omega) (by decide) (by decide) (by decide),
    h.2.1 0 1 (by decide) (by decide) (by decide) (by decide),
    h.2.2 0 (by decide)⟩
